import Mathlib

/-!
Verification development for the diff engine of `gdiff`
(`internal/diff/engine.go`).  The Go source is shallowly embedded below:
lines are Lean `String`s, rune offsets are `Nat` (a `String`'s rune
sequence is `String.data : List Char`), slices are `List`s, and Go map
state is passed explicitly.  The engine delegates line/token alignment to
the vendored dependency `github.com/pmezard/go-difflib/difflib`
(`NewMatcher` / `GetOpCodes`), which is embedded here as well, faithfully
to its source: `chainB` (with `IsJunk = nil` and `autoJunk = true` as set
by `NewMatcher`), `findLongestMatch`, the recursive `GetMatchingBlocks`
and `GetOpCodes`.
-/

namespace GDiff

/-- Line classification, `LineType` in engine.go (`Equal`, `Added`, `Removed`). -/
inductive LineType where
  | Equal : LineType
  | Added : LineType
  | Removed : LineType
deriving DecidableEq, Repr

/-- A token range that changed within a line, `Highlight` in engine.go.
`Start` and `End` are rune offsets (inclusive / exclusive). -/
structure Highlight where
  Start : Nat
  End : Nat
deriving DecidableEq, Repr

/-- A single line in the diff, `DiffLine` in engine.go.  The Go field `Type`
is spelled `type` here (capital `Type` is reserved in Lean).  Line numbers are
0 when not applicable. -/
structure DiffLine where
  type : LineType
  Content : String
  LineNo1 : Nat
  LineNo2 : Nat
  Highlights : List Highlight
deriving DecidableEq, Repr

/-- Result of a diff operation, `DiffResult` in engine.go. -/
structure DiffResult where
  Lines : List DiffLine
  File1Name : String
  File2Name : String
  File1Lines : List String
  File2Lines : List String
deriving DecidableEq, Repr

/-- A tokenized fragment of a line, `Token` in engine.go; `Start`/`End`
are rune offsets into the line the token was extracted from. -/
structure Token where
  Value : String
  Start : Nat
  End : Nat
deriving DecidableEq, Repr

/-- Indexing a `[]string` slice; all difflib index accesses are in range
(proved below), so a default `""` carries no behavior. -/
def sget (l : List String) (i : Nat) : String := l.getD i ""

/-! ### The difflib sequence matcher (vendored `go-difflib`) -/

/-- `Match` of go-difflib: a maximal matching block `a[A:A+Size] == b[B:B+Size]`. -/
structure GoMatch where
  A : Nat
  B : Nat
  Size : Nat
deriving DecidableEq, Repr

/-- `OpCode` of go-difflib: `Tag` is one of `'r'`, `'d'`, `'i'`, `'e'`. -/
structure OpCode where
  Tag : Char
  I1 : Nat
  I2 : Nat
  J1 : Nat
  J2 : Nat
deriving DecidableEq, Repr

/-- Ascending list of positions of `s` in `b`: the `b2j` table built by
`chainB` before junk/popular purging (`b2j[s] = append(b2j[s], i)` over `i`). -/
def positionsOf (b : List String) (s : String) : List Nat :=
  (List.range b.length).filter (fun j => sget b j == s)

/-- The `autoJunk` popularity purge of `chainB`: with `autoJunk = true`
(as set by `NewMatcher`), when `len(b) >= 200`, entries occurring more than
`len(b)/100 + 1` times are deleted from `b2j`. -/
def isPopular (b : List String) (s : String) : Bool :=
  200 ≤ b.length && b.length / 100 + 1 < (positionsOf b s).length

/-- The purged `b2j` table of `chainB`.  `NewMatcher` leaves `IsJunk = nil`,
so `bJunk` is empty and only the popularity purge applies. -/
def b2j (b : List String) (s : String) : List Nat :=
  if isPopular b s then [] else positionsOf b s

/-- Running best match of `findLongestMatch` (`besti`, `bestj`, `bestsize`). -/
structure Best where
  besti : Nat
  bestj : Nat
  bestsize : Nat
deriving DecidableEq, Repr

/-- Inner loop of `findLongestMatch` over the candidate columns `js` of row `i`:
`k := j2len[j-1] + 1; newj2len[j] = k; if k > bestsize { besti, bestj, bestsize =
i-k+1, j-k+1, k }`.  The `j2len` maps are total functions defaulting to 0 (as Go
map reads default to 0); `old` is the previous row's map, fixed for the whole
row.  Go writes `i-k+1` on `int`; here `i + 1 - k` on `Nat`, equal because
`k ≤ i + 1` and `k ≤ j + 1` always hold (lemmas `flmInner_*` below). -/
def flmInner (old : Nat → Nat) (i : Nat) : List Nat → (Nat → Nat) → Best → (Nat → Nat) × Best
  | [], f, best => (f, best)
  | j :: js, f, best =>
      let k := (if j = 0 then 0 else old (j - 1)) + 1
      let f' := fun x => if x = j then k else f x
      let best' := if best.bestsize < k then ⟨i + 1 - k, j + 1 - k, k⟩ else best
      flmInner old i js f' best'

/-- One row of the `findLongestMatch` dynamic program.  The Go loop body
`continue`s on `j < blo` and `break`s on `j >= bhi`; since the `b2j` position
lists are ascending this is exactly a filter to `blo ≤ j < bhi`. -/
def flmRow (a b : List String) (blo bhi : Nat) (st : (Nat → Nat) × Best) (i : Nat) :
    (Nat → Nat) × Best :=
  let js := (b2j b (sget a i)).filter (fun j => blo ≤ j && j < bhi)
  flmInner st.1 i js (fun _ => 0) st.2

/-- The backward extension loop of `findLongestMatch`:
`for besti > alo && bestj > blo && !isBJunk(b[bestj-1]) && a[besti-1] == b[bestj-1]`.
`bJunk` is empty (`IsJunk = nil` in `NewMatcher`), so the junk test is dropped
and the later junk-extension loops of the Go source never execute. -/
def extendBack (a b : List String) (alo blo : Nat) : Nat → Nat → Nat → Best
  | 0, bestj, bestsize => ⟨0, bestj, bestsize⟩
  | besti + 1, bestj, bestsize =>
      if alo < besti + 1 ∧ blo < bestj ∧ sget a besti = sget b (bestj - 1) then
        extendBack a b alo blo besti (bestj - 1) (bestsize + 1)
      else ⟨besti + 1, bestj, bestsize⟩

/-- The forward extension loop of `findLongestMatch`:
`for besti+bestsize < ahi && bestj+bestsize < bhi && a[besti+bestsize] == b[bestj+bestsize]`
(junk test dropped as in `extendBack`).  The `fuel` argument only bounds the
recursion for structural termination; `findLongestMatch` passes `ahi`, which
always suffices: each iteration needs `besti + bestsize < ahi` and increments
`bestsize`, so there are at most `ahi` iterations. -/
def extendForward (a b : List String) (ahi bhi besti bestj : Nat) : Nat → Nat → Nat
  | 0, bestsize => bestsize
  | fuel + 1, bestsize =>
      if besti + bestsize < ahi ∧ bestj + bestsize < bhi ∧
          sget a (besti + bestsize) = sget b (bestj + bestsize) then
        extendForward a b ahi bhi besti bestj fuel (bestsize + 1)
      else bestsize

/-- `findLongestMatch(alo, ahi, blo, bhi)` of go-difflib.  The row loop
`for i := alo; i != ahi; i++` is a fold over `[alo, ahi)` (all call sites
have `alo ≤ ahi`). -/
def findLongestMatch (a b : List String) (alo ahi blo bhi : Nat) : GoMatch :=
  let st := (List.range' alo (ahi - alo)).foldl (flmRow a b blo bhi) ((fun _ => 0), ⟨alo, blo, 0⟩)
  let e := extendBack a b alo blo st.2.besti st.2.bestj st.2.bestsize
  let size := extendForward a b ahi bhi e.besti e.bestj ahi e.bestsize
  ⟨e.besti, e.bestj, size⟩

/-- The recursive `matchBlocks` closure of `GetMatchingBlocks`.  Go threads an
accumulator that is appended to in order (left recursion, the match, right
recursion); the accumulator-free form below produces the identical list.  The
`fuel` argument only bounds the recursion depth for Lean's termination checker:
`getMatchingBlocks` passes `a.length + b.length + 1`, and every recursive call
strictly shrinks `(ahi - alo) + (bhi - blo)` (lemma `matchBlocks_measure`
context below), so the `fuel = 0` branch is never taken at the call site. -/
def matchBlocks (a b : List String) : Nat → Nat → Nat → Nat → Nat → List GoMatch
  | 0, _, _, _, _ => []
  | fuel + 1, alo, ahi, blo, bhi =>
      let m := findLongestMatch a b alo ahi blo bhi
      if m.Size = 0 then []
      else
        (if alo < m.A ∧ blo < m.B then matchBlocks a b fuel alo m.A blo m.B else []) ++
        [m] ++
        (if m.A + m.Size < ahi ∧ m.B + m.Size < bhi then
          matchBlocks a b fuel (m.A + m.Size) ahi (m.B + m.Size) bhi else [])

/-- The adjacent-block collapse loop of `GetMatchingBlocks`, with running
block `(i1, j1, k1)` starting at `(0, 0, 0)`: an adjacent block
(`i1+k1 == i2 && j1+k1 == j2`) is absorbed into the running one, otherwise the
running block is emitted (when nonempty) and replaced. -/
def collapseAdjacent : List GoMatch → Nat → Nat → Nat → List GoMatch
  | [], i1, j1, k1 => if 0 < k1 then [⟨i1, j1, k1⟩] else []
  | m :: rest, i1, j1, k1 =>
      if i1 + k1 = m.A ∧ j1 + k1 = m.B then collapseAdjacent rest i1 j1 (k1 + m.Size)
      else (if 0 < k1 then [⟨i1, j1, k1⟩] else []) ++ collapseAdjacent rest m.A m.B m.Size

/-- `GetMatchingBlocks` of go-difflib: recursive block finding, adjacent
collapse, then the sentinel `Match{len(a), len(b), 0}`. -/
def getMatchingBlocks (a b : List String) : List GoMatch :=
  let matched := matchBlocks a b (a.length + b.length + 1) 0 a.length 0 b.length
  collapseAdjacent matched 0 0 0 ++ [⟨a.length, b.length, 0⟩]

/-- The loop of `GetOpCodes`, with running position `(i, j)` starting at
`(0, 0)`: for each block, first the gap opcode (`'r'`/`'d'`/`'i'`, skipped when
the gap is empty — Go's `tag = byte(0)` case), then the `'e'` opcode when the
block is nonempty. -/
def opCodesLoop : List GoMatch → Nat → Nat → List OpCode
  | [], _, _ => []
  | m :: rest, i, j =>
      (if i < m.A ∧ j < m.B then [⟨'r', i, m.A, j, m.B⟩]
       else if i < m.A then [⟨'d', i, m.A, j, m.B⟩]
       else if j < m.B then [⟨'i', i, m.A, j, m.B⟩]
       else []) ++
      (if 0 < m.Size then [⟨'e', m.A, m.A + m.Size, m.B, m.B + m.Size⟩] else []) ++
      opCodesLoop rest (m.A + m.Size) (m.B + m.Size)

/-- `GetOpCodes` of go-difflib (`NewMatcher(a, b).GetOpCodes()`). -/
def getOpCodes (a b : List String) : List OpCode :=
  opCodesLoop (getMatchingBlocks a b) 0 0

/-! ### The default regex tokenizer

`RegexTokenizer.Tokenize` calls `FindAllStringIndex` with the constant
`defaultTokenPattern`
`\s+|[A-Za-z_][A-Za-z0-9_]*|0x[0-9A-Fa-f]+|\d+|==|!=|<=|>=|:=|&&|\|\||[...punct...]`
and converts byte offsets to rune offsets.  `regexp.MustCompile` gives Go's
leftmost-first (Perl) semantics: at each starting position the alternatives
are tried in pattern order, each matching greedily; `FindAllStringIndex`
takes the leftmost match, then continues after it.  Every alternative matches
only ASCII characters, so matches always start and end at rune boundaries and
the scan below can work directly on the rune list with rune offsets. -/

/-- Go's regexp `\s`, i.e. the class `[\t\n\f\r ]`. -/
def isPatSpace (c : Char) : Bool :=
  c = ' ' || c = '\t' || c = '\n' || c = Char.ofNat 12 || c = '\r'

/-- First character of `[A-Za-z_][A-Za-z0-9_]*`. -/
def isIdentStart (c : Char) : Bool :=
  ('A' ≤ c && c ≤ 'Z') || ('a' ≤ c && c ≤ 'z') || c = '_'

/-- Continuation character of `[A-Za-z_][A-Za-z0-9_]*`. -/
def isIdentChar (c : Char) : Bool :=
  isIdentStart c || ('0' ≤ c && c ≤ '9')

/-- The class `\d`. -/
def isDigitChar (c : Char) : Bool :=
  '0' ≤ c && c ≤ '9'

/-- The class `[0-9A-Fa-f]`. -/
def isHexDigit (c : Char) : Bool :=
  isDigitChar c || ('A' ≤ c && c ≤ 'F') || ('a' ≤ c && c ≤ 'f')

/-- The single-character class of the default pattern:
braces, parens, brackets, `.,;:+-*/&|<>!=`. -/
def isPunctChar (c : Char) : Bool :=
  c ∈ ['\x7b', '\x7d', '(', ')', '[', ']', '.', ',', ';', ':',
       '+', '-', '*', '/', '&', '|', '<', '>', '!', '=']

/-- The alternative `0x[0-9A-Fa-f]+`: literal `0x` followed by at least one
hex digit, greedy. -/
def matchHex : List Char → Option (List Char × List Char)
  | '0' :: 'x' :: r =>
      let ds := r.takeWhile isHexDigit
      if ds.isEmpty then none else some ('0' :: 'x' :: ds, r.drop ds.length)
  | _ => none

/-- The seven two-character operator alternatives
`==`, `!=`, `<=`, `>=`, `:=`, `&&`, `||`. -/
def isOp2 (c d : Char) : Bool :=
  (c = '=' && d = '=') || (c = '!' && d = '=') || (c = '<' && d = '=') ||
  (c = '>' && d = '=') || (c = ':' && d = '=') || (c = '&' && d = '&') ||
  (c = '|' && d = '|')

/-- Match of the default token pattern at the head of `cs`, if any: the
alternatives in the pattern's order, each greedy (leftmost-first semantics).
Returns the matched run and the remainder. -/
def matchAt : List Char → Option (List Char × List Char)
  | [] => none
  | c :: rest =>
      if isPatSpace c then
        let run := rest.takeWhile isPatSpace
        some (c :: run, rest.drop run.length)
      else if isIdentStart c then
        let run := rest.takeWhile isIdentChar
        some (c :: run, rest.drop run.length)
      else
        match matchHex (c :: rest) with
        | some p => some p
        | none =>
            if isDigitChar c then
              let run := rest.takeWhile isDigitChar
              some (c :: run, rest.drop run.length)
            else
              match rest with
              | d :: rest2 =>
                  if isOp2 c d then some ([c, d], rest2)
                  else if isPunctChar c then some ([c], d :: rest2)
                  else none
              | [] => if isPunctChar c then some ([c], []) else none

/-- The `FindAllStringIndex` scan: leftmost matches in sequence, each
converted to a `Token` with rune offsets (`pos` is the current rune offset).
A position where no alternative matches produces no token and the scan moves
one rune forward.  `fuel` only bounds recursion for the termination checker;
`tokenizeDefault` passes the line length and every step consumes at least one
rune, so fuel never runs out at the call site. -/
def scanTokens : Nat → List Char → Nat → List Token
  | 0, _, _ => []
  | _ + 1, [], _ => []
  | fuel + 1, c :: rest, pos =>
      match matchAt (c :: rest) with
      | some (tok, rem) =>
          ⟨String.mk tok, pos, pos + tok.length⟩ :: scanTokens fuel rem (pos + tok.length)
      | none => scanTokens fuel rest (pos + 1)

/-- `RegexTokenizer.Tokenize` with the default pattern: if the scan yields no
match at all, one token spanning the whole line (its full rune count) is
returned. -/
def tokenizeDefault (line : String) : List Token :=
  let toks := scanTokens line.data.length line.data 0
  if toks.isEmpty then [⟨line, 0, line.data.length⟩] else toks

/-! ### Highlight merging (`mergeHighlights`, `tokenRangeToHighlight`,
`tokenHighlights`) -/

/-- Indexing the in-place highlight slice; the sort loops below only access
indexes below the (fixed) length, so the default carries no behavior. -/
def hlGet (l : List Highlight) (i : Nat) : Highlight := l.getD i ⟨0, 0⟩

/-- The swap `filtered[i], filtered[j] = filtered[j], filtered[i]`. -/
def hlSwap (l : List Highlight) (i j : Nat) : List Highlight :=
  (l.set i (hlGet l j)).set j (hlGet l i)

/-- Inner sort loop of `mergeHighlights`:
`for j := i+1; j < len(filtered); j++ { if filtered[j].Start < filtered[i].Start { swap } }`.
`n` is the (unchanging) slice length.  The `fuel` argument only bounds the
recursion for structural termination; callers pass `n`, which always suffices
since each iteration needs `j < n` and increments `j`. -/
def sortInner (n i : Nat) : Nat → List Highlight → Nat → List Highlight
  | 0, l, _ => l
  | fuel + 1, l, j =>
      if j < n then
        sortInner n i fuel
          (if (hlGet l j).Start < (hlGet l i).Start then hlSwap l i j else l) (j + 1)
      else l

/-- Outer sort loop of `mergeHighlights`: `for i := 0; i < len(filtered)-1; i++`
(fuel as in `sortInner`). -/
def sortOuter (n : Nat) : Nat → List Highlight → Nat → List Highlight
  | 0, l, _ => l
  | fuel + 1, l, i =>
      if i + 1 < n then sortOuter n fuel (sortInner n i n l (i + 1)) (i + 1) else l

/-- The merge loop of `mergeHighlights` over the sorted slice, with `last` the
running final element of `merged`: an overlapping or touching span
(`h.Start <= last.End`) extends `last.End` to the maximum, anything else is
appended. -/
def mergeLoop (acc : List Highlight) (last : Highlight) : List Highlight → List Highlight
  | [] => acc ++ [last]
  | h :: rest =>
      if h.Start ≤ last.End then mergeLoop acc ⟨last.Start, max last.End h.End⟩ rest
      else mergeLoop (acc ++ [last]) h rest

/-- `mergeHighlights` of engine.go: drop zero-length entries, sort by `Start`
(the in-place double loop), then merge overlapping/touching spans. -/
def mergeHighlights (highlights : List Highlight) : List Highlight :=
  if highlights.isEmpty then highlights
  else
    let filtered := highlights.filter (fun h => h.Start < h.End)
    match sortOuter filtered.length filtered.length filtered 0 with
    | [] => []
    | h0 :: rest => mergeLoop [] h0 rest

/-- `tokenRangeToHighlight` of engine.go: span from `tokens[start].Start` to
`tokens[end-1].End`, after clamping `end` to `len(tokens)`; degenerate inputs
give `{0, 0}`. -/
def tokenRangeToHighlight (tokens : List Token) (start stop : Nat) : Highlight :=
  if tokens.length = 0 ∨ tokens.length ≤ start ∨ start = stop then ⟨0, 0⟩
  else
    ⟨(tokens.getD start ⟨"", 0, 0⟩).Start,
     (tokens.getD (min stop tokens.length - 1) ⟨"", 0, 0⟩).End⟩

/-- `Engine.tokenHighlights`: tokenize both lines, align the token-value
lists with the matcher, and turn `'r'`/`'d'` opcodes into side-A highlights
and `'r'`/`'i'` opcodes into side-B highlights (in opcode order, as the Go
loop appends), then merge each side. -/
def tokenHighlights (tokenize : String → List Token) (left right : String) :
    List Highlight × List Highlight :=
  let leftTokens := tokenize left
  let rightTokens := tokenize right
  let opcodes := getOpCodes (leftTokens.map (·.Value)) (rightTokens.map (·.Value))
  let leftHighlights := (opcodes.filter (fun o => o.Tag = 'r' || o.Tag = 'd')).map
    (fun o => tokenRangeToHighlight leftTokens o.I1 o.I2)
  let rightHighlights := (opcodes.filter (fun o => o.Tag = 'r' || o.Tag = 'i')).map
    (fun o => tokenRangeToHighlight rightTokens o.J1 o.J2)
  (mergeHighlights leftHighlights, mergeHighlights rightHighlights)

/-! ### The assembler (`Engine.DiffLines`) -/

/-- The full-line highlight `[]Highlight{{Start: 0, End: utf8.RuneCountInString(s)}}`
used for pure deletions, pure insertions and replace spillover. -/
def fullLineHighlight (s : String) : List Highlight := [⟨0, s.data.length⟩]

/-- The `case 'e'` loop of `DiffLines`: one `Equal` record per covered index,
advancing both line counters. -/
def emitEqual (lines1 : List String) (i1 i2 n1 n2 : Nat) : List DiffLine :=
  (List.range (i2 - i1)).map (fun t => ⟨.Equal, sget lines1 (i1 + t), n1 + t, n2 + t, []⟩)

/-- The `case 'd'` loop of `DiffLines`: full-line-highlighted `Removed`
records, advancing only `lineNo1`. -/
def emitDelete (lines1 : List String) (i1 i2 n1 : Nat) : List DiffLine :=
  (List.range (i2 - i1)).map (fun t =>
    ⟨.Removed, sget lines1 (i1 + t), n1 + t, 0, fullLineHighlight (sget lines1 (i1 + t))⟩)

/-- The `case 'i'` loop of `DiffLines`: full-line-highlighted `Added`
records, advancing only `lineNo2`. -/
def emitInsert (lines2 : List String) (j1 j2 n2 : Nat) : List DiffLine :=
  (List.range (j2 - j1)).map (fun t =>
    ⟨.Added, sget lines2 (j1 + t), 0, n2 + t, fullLineHighlight (sget lines2 (j1 + t))⟩)

/-- The `case 'r'` loop of `DiffLines`: `for k := 0; k < max(i2-i1, j2-j1); k++`,
pairing index-by-index (intra-line token highlights) while both sides last,
then full-line spillover; the `Removed` record (when any) precedes the `Added`
record (when any) at each `k`.  Within the loop `lineNo1 = n1 + k` on `Removed`
records (only they advance it) and `lineNo2 = n2 + k` on `Added` records. -/
def emitReplace (tokenize : String → List Token) (lines1 lines2 : List String)
    (i1 i2 j1 j2 n1 n2 : Nat) : List DiffLine :=
  (List.range (max (i2 - i1) (j2 - j1))).flatMap (fun k =>
    let hl : List Highlight × List Highlight :=
      if k < i2 - i1 ∧ k < j2 - j1 then
        tokenHighlights tokenize (sget lines1 (i1 + k)) (sget lines2 (j1 + k))
      else if k < i2 - i1 then (fullLineHighlight (sget lines1 (i1 + k)), [])
      else if k < j2 - j1 then ([], fullLineHighlight (sget lines2 (j1 + k)))
      else ([], [])
    (if k < i2 - i1 then [⟨.Removed, sget lines1 (i1 + k), n1 + k, 0, hl.1⟩] else []) ++
    (if k < j2 - j1 then [⟨.Added, sget lines2 (j1 + k), 0, n2 + k, hl.2⟩] else []))

/-- The opcode walk of `DiffLines`, threading the two line counters (which
start at 1).  Tags other than `'e'`/`'d'`/`'i'`/`'r'` do not occur. -/
def assemble (tokenize : String → List Token) (lines1 lines2 : List String) :
    List OpCode → Nat → Nat → List DiffLine
  | [], _, _ => []
  | op :: rest, n1, n2 =>
      (if op.Tag = 'e' then emitEqual lines1 op.I1 op.I2 n1 n2
       else if op.Tag = 'd' then emitDelete lines1 op.I1 op.I2 n1
       else if op.Tag = 'i' then emitInsert lines2 op.J1 op.J2 n2
       else if op.Tag = 'r' then emitReplace tokenize lines1 lines2 op.I1 op.I2 op.J1 op.J2 n1 n2
       else []) ++
      assemble tokenize lines1 lines2 rest
        (n1 + (if op.Tag = 'e' || op.Tag = 'd' || op.Tag = 'r' then op.I2 - op.I1 else 0))
        (n2 + (if op.Tag = 'e' || op.Tag = 'i' || op.Tag = 'r' then op.J2 - op.J1 else 0))

/-- `Engine.DiffLines`, parameterized by the two functions the engine
configuration determines: `normalize` is `Engine.normalizeLine` (ignore-pattern
stripping and optional whitespace folding) and `tokenize` is the tokenizer
`selectTokenizer` picks from the language hint / file extensions.  The matcher
runs on the normalized lines; emitted contents are the original lines. -/
def DiffLinesWith (normalize : String → String) (tokenize : String → List Token)
    (lines1 lines2 : List String) (file1Name file2Name : String) : DiffResult :=
  let opcodes := getOpCodes (lines1.map normalize) (lines2.map normalize)
  ⟨assemble tokenize lines1 lines2 opcodes 1 1, file1Name, file2Name, lines1, lines2⟩

/-- `DiffResult.HasChanges`: true iff some line is not `Equal`. -/
def HasChanges (r : DiffResult) : Bool :=
  r.Lines.any (fun line => line.type ≠ LineType.Equal)

/-! ### Engine configuration (`NewEngine`, `normalizeLine`) -/

/-- Go's `unicode.IsSpace` (the White_Space property), used by
`strings.Fields`. -/
def goIsSpace (c : Char) : Bool :=
  c.toNat ∈ ([9, 10, 11, 12, 13, 32, 0x85, 0xA0, 0x1680,
    0x2000, 0x2001, 0x2002, 0x2003, 0x2004, 0x2005, 0x2006, 0x2007, 0x2008,
    0x2009, 0x200A, 0x2028, 0x2029, 0x202F, 0x205F, 0x3000] : List Nat)

/-- `strings.Fields`: the maximal runs of non-space characters. -/
def goFields (s : String) : List String :=
  ((s.data.splitOnP goIsSpace).filter (fun r => r ≠ [])).map String.mk

/-- `Engine.normalizeLine` for a configuration with no ignore-patterns:
when `IgnoreWhitespace` is set, `strings.Join(strings.Fields(line), " ")`. -/
def normalizeGo (ignoreWhitespace : Bool) (line : String) : String :=
  if ignoreWhitespace then " ".intercalate (goFields line) else line

/-- Engine construction options (`EngineOptions` of engine.go); the
`TokenPatterns` map is carried as an association list. -/
structure EngineOptions where
  Language : String
  IgnoreWhitespace : Bool
  IgnorePatterns : List String
  TokenPatterns : List (String × String)
deriving DecidableEq, Repr

/-- `compileIgnorePatterns` of engine.go, relative to a compile-success
oracle `ok` standing for `regexp.Compile(p)` returning `err == nil`.  The Go
regexp compiler is an external library function, so it enters the model as
this oracle parameter rather than being re-implemented; the construction-time
control flow below is what engine.go adds on top of it.  A pattern is kept
exactly when it compiles (the `err == nil` filter); the compiled regexps are
represented by their source patterns. -/
def compileIgnorePatternsModel (ok : String → Bool) (patterns : List String) : List String :=
  patterns.filter ok

/-- The constructed engine: the tokenizer table is represented by its keys
(the built-in extension table plus the configured ones) and the surviving
ignore patterns by their sources. -/
structure EngineModel where
  options : EngineOptions
  tokenizerExts : List String
  ignorePatterns : List String
deriving DecidableEq, Repr

/-- The built-in extension table of `buildTokenizers` (every entry maps to
the default pattern). -/
def defaultExts : List String :=
  [".go", ".js", ".ts", ".jsx", ".tsx", ".py", ".rb", ".rs", ".java",
   ".c", ".h", ".cpp", ".css", ".html", ".md"]

/-- `NewEngine` of engine.go, relative to the same compile-success oracle
`ok` as `compileIgnorePatternsModel`: `buildTokenizers` feeds every configured
pattern to `NewRegexTokenizer`, which calls `regexp.MustCompile` — a pattern
that fails to compile panics, aborting construction; that is the `none` case.
Ignore-patterns that fail to compile are silently filtered by
`compileIgnorePatterns` instead. -/
def NewEngineModel (ok : String → Bool) (options : EngineOptions) : Option EngineModel :=
  if options.TokenPatterns.all (fun e => ok e.2) then
    some ⟨options, defaultExts ++ options.TokenPatterns.map (·.1),
      compileIgnorePatternsModel ok options.IgnorePatterns⟩
  else none

/-- A tokenizer whose token spans end within the line's rune count.  Every Go
`RegexTokenizer` has this property (its matches lie inside the line);
`tokenizeDefault_bounded` proves it for the default tokenizer. -/
def TokenizerBounded (tokenize : String → List Token) : Prop :=
  ∀ s : String, ∀ t ∈ tokenize s, t.End ≤ s.data.length

/-! ### Specification predicates -/

/-- Invariant of the `j2len` map after some rows of the `findLongestMatch`
dynamic program: every entry is bounded by the number `cnt` of processed rows
and by its column position, lives inside `[blo, bhi)`, and records an actual
element-wise match ending at the last processed row `i`. -/
def RowsDone (a b : List String) (blo bhi i cnt : Nat) (f : Nat → Nat) : Prop :=
  ∀ j, f j ≤ cnt ∧ f j ≤ j + 1 - blo ∧
    (0 < f j → blo ≤ j ∧ j < bhi ∧ ∀ t < f j, sget a (i - t) = sget b (j - t))

/-- Invariant of the running best match of `findLongestMatch`: it lies inside
`[alo, bnd) × [blo, bhi)` and is an actual element-wise match. -/
def BestProp (a b : List String) (alo blo bhi bnd : Nat) (best : Best) : Prop :=
  alo ≤ best.besti ∧ blo ≤ best.bestj ∧
  best.besti + best.bestsize ≤ bnd ∧ best.bestj + best.bestsize ≤ bhi ∧
  ∀ t < best.bestsize, sget a (best.besti + t) = sget b (best.bestj + t)

/-- A well-formed run of matching blocks starting at `(i, j)` and staying
inside `[·, hi1) × [·, hi2)`: blocks are nonempty actual matches, in strictly
advancing position order on both sides. -/
def BlocksChain (a b : List String) : Nat → Nat → Nat → Nat → List GoMatch → Prop
  | i, j, hi1, hi2, [] => i ≤ hi1 ∧ j ≤ hi2
  | i, j, hi1, hi2, m :: rest =>
      i ≤ m.A ∧ j ≤ m.B ∧ 0 < m.Size ∧
      (∀ t < m.Size, sget a (m.A + t) = sget b (m.B + t)) ∧
      BlocksChain a b (m.A + m.Size) (m.B + m.Size) hi1 hi2 rest

/-- A well-formed opcode list starting at `(i, j)`: opcodes are contiguous,
exactly cover `[0, len a)` and `[0, len b)` when started at `(0, 0)`, and each
tag constrains its ranges as difflib guarantees (`'e'` ranges are equal-length
element-wise matches, `'d'` moves only the source, `'i'` only the target,
`'r'` both). -/
def ValidOps (a b : List String) : Nat → Nat → List OpCode → Prop
  | i, j, [] => i = a.length ∧ j = b.length
  | i, j, op :: rest =>
      op.I1 = i ∧ op.J1 = j ∧
      ((op.Tag = 'e' ∧ i < op.I2 ∧ op.I2 - i = op.J2 - j ∧
          ∀ t < op.I2 - i, sget a (i + t) = sget b (j + t)) ∨
       (op.Tag = 'd' ∧ i < op.I2 ∧ op.J2 = j) ∨
       (op.Tag = 'i' ∧ op.I2 = i ∧ j < op.J2) ∨
       (op.Tag = 'r' ∧ i < op.I2 ∧ j < op.J2)) ∧
      ValidOps a b op.I2 op.J2 rest

/-- Row eligibility for the self-comparison argument: position `j` is in
range and its value survives the popularity purge (so `b2j` lists it). -/
def eligRow (x : List String) (j : Nat) : Bool :=
  decide (j < x.length) && !isPopular x (sget x j)

/-- Length of the maximal run of eligible positions ending at `j`. -/
def drun (x : List String) : Nat → Nat
  | 0 => if eligRow x 0 then 1 else 0
  | j + 1 => if eligRow x (j + 1) then drun x j + 1 else 0

/-- Maximum of `drun` over positions below `i`. -/
def dmax (x : List String) : Nat → Nat
  | 0 => 0
  | i + 1 => max (dmax x i) (drun x i)

/-- Modelled from the spec (§4.5, Replace operation): pair lines
index-by-index up to `min(m, n)`, emitting per pair one `Removed` record with
intra-line highlights followed by one `Added` record with intra-line
highlights, both counters advancing; then emit every remaining unpaired line
on the longer side as a full-line-highlighted `Removed` (source longer) or
`Added` (target longer) record, advancing only the relevant counter.  Claim C7
asserts the engine's replace branch behaves exactly like this. -/
def replaceSpecEmit (tokenize : String → List Token) (lines1 lines2 : List String)
    (i1 i2 j1 j2 n1 n2 : Nat) : List DiffLine :=
  let m := i2 - i1
  let n := j2 - j1
  ((List.range (min m n)).flatMap (fun k =>
    let hl := tokenHighlights tokenize (sget lines1 (i1 + k)) (sget lines2 (j1 + k))
    [⟨.Removed, sget lines1 (i1 + k), n1 + k, 0, hl.1⟩,
     ⟨.Added, sget lines2 (j1 + k), 0, n2 + k, hl.2⟩])) ++
  (if n < m then
    (List.range' (min m n) (m - min m n)).map (fun k =>
      ⟨.Removed, sget lines1 (i1 + k), n1 + k, 0, fullLineHighlight (sget lines1 (i1 + k))⟩)
   else
    (List.range' (min m n) (n - min m n)).map (fun k =>
      ⟨.Added, sget lines2 (j1 + k), 0, n2 + k, fullLineHighlight (sget lines2 (j1 + k))⟩))

/-! ## Theorems -/

theorem blocksChain_mono {a b : List String} {hi1 hi2 : Nat} :
    ∀ {L : List GoMatch} {i j i' j' : Nat}, BlocksChain a b i j hi1 hi2 L →
      i' ≤ i → j' ≤ j → BlocksChain a b i' j' hi1 hi2 L := by
  intro L
  match L with
  | [] =>
    intro i j i' j' h hi hj
    exact ⟨Nat.le_trans hi h.1, Nat.le_trans hj h.2⟩
  | m :: rest =>
    intro i j i' j' h hi hj
    obtain ⟨h1, h2, h3, h4, h5⟩ := h
    exact ⟨Nat.le_trans hi h1, Nat.le_trans hj h2, h3, h4, h5⟩

theorem blocksChain_append {a b : List String} {hi1 hi2 : Nat} :
    ∀ {L1 : List GoMatch} {L2 : List GoMatch} {i j mid1 mid2 : Nat},
      BlocksChain a b i j mid1 mid2 L1 →
      BlocksChain a b mid1 mid2 hi1 hi2 L2 →
      BlocksChain a b i j hi1 hi2 (L1 ++ L2) := by
  intro L1
  induction L1 with
  | nil =>
    intro L2 i j mid1 mid2 h1 h2
    exact blocksChain_mono h2 h1.1 h1.2
  | cons m rest ih =>
    intro L2 i j mid1 mid2 h1 h2
    obtain ⟨ha, hb, hc, hd, he⟩ := h1
    exact ⟨ha, hb, hc, hd, ih he h2⟩

theorem positionsOf_mem {b : List String} {s : String} {j : Nat}
    (h : j ∈ positionsOf b s) : j < b.length ∧ sget b j = s := by
  simp only [positionsOf, List.mem_filter, List.mem_range, beq_iff_eq] at h
  exact h

theorem b2j_mem {b : List String} {s : String} {j : Nat}
    (h : j ∈ b2j b s) : j < b.length ∧ sget b j = s := by
  simp only [b2j] at h
  split at h
  · simp at h
  · exact positionsOf_mem h

theorem bestProp_mono {a b : List String} {alo blo bhi bnd bnd' : Nat} {best : Best}
    (h : BestProp a b alo blo bhi bnd best) (hb : bnd ≤ bnd') :
    BestProp a b alo blo bhi bnd' best := by
  obtain ⟨h1, h2, h3, h4, h5⟩ := h
  exact ⟨h1, h2, Nat.le_trans h3 hb, h4, h5⟩

theorem flmInner_inv (a b : List String) (alo blo bhi i cnt : Nat)
    (old : Nat → Nat) (hcnt : cnt + alo ≤ i)
    (hold : RowsDone a b blo bhi (i - 1) cnt old) :
    ∀ js (f : Nat → Nat) (best : Best),
      (∀ j ∈ js, blo ≤ j ∧ j < bhi ∧ sget b j = sget a i) →
      RowsDone a b blo bhi i (cnt + 1) f →
      BestProp a b alo blo bhi (i + 1) best →
      RowsDone a b blo bhi i (cnt + 1) (flmInner old i js f best).1 ∧
      BestProp a b alo blo bhi (i + 1) (flmInner old i js f best).2 := by
  intro js
  induction js with
  | nil => intro f best _ hf hb; exact ⟨hf, hb⟩
  | cons j js ih =>
    intro f best hjs hf hb
    obtain ⟨hjb, hjh, hjv⟩ := hjs j (List.mem_cons_self ..)
    set K := (if j = 0 then 0 else old (j - 1)) + 1 with hK
    have hkle : K ≤ cnt + 1 := by
      rw [hK]
      split
      · omega
      · have := (hold (j - 1)).1
        omega
    have hkcol : K ≤ j + 1 - blo := by
      rw [hK]
      split
      · rename_i h0; subst h0; omega
      · have := (hold (j - 1)).2.1
        omega
    have hrun : ∀ t < K, sget a (i - t) = sget b (j - t) := by
      intro t ht
      match t with
      | 0 => simpa using hjv.symm
      | t' + 1 =>
        rw [hK] at ht
        have hj0 : j ≠ 0 := by
          intro h0
          rw [if_pos h0] at ht
          omega
        rw [if_neg hj0] at ht
        have hto : t' < old (j - 1) := by omega
        have hm := ((hold (j - 1)).2.2 (by omega)).2.2 t' hto
        have hx : i - (t' + 1) = i - 1 - t' := by omega
        have hy : j - (t' + 1) = j - 1 - t' := by omega
        rw [hx, hy]
        exact hm
    have hred : flmInner old i (j :: js) f best =
        flmInner old i js (fun x => if x = j then K else f x)
          (if best.bestsize < K then ⟨i + 1 - K, j + 1 - K, K⟩ else best) := by
      rw [hK]
      rfl
    rw [hred]
    apply ih _ _ (fun x hx => hjs x (List.mem_cons_of_mem _ hx))
    · -- map invariant for the updated map
      intro x
      by_cases hx : x = j
      · subst hx
        simp only [if_pos rfl]
        exact ⟨hkle, hkcol, fun _ => ⟨hjb, hjh, hrun⟩⟩
      · simp only [if_neg hx]
        exact hf x
    · -- best invariant after the conditional update
      split
      · rename_i hlt
        obtain ⟨h1, h2, h3, h4, h5⟩ := hb
        refine ⟨show alo ≤ i + 1 - K by omega, show blo ≤ j + 1 - K by omega,
          show i + 1 - K + K ≤ i + 1 by omega, show j + 1 - K + K ≤ bhi by omega, ?_⟩
        show ∀ t < K, sget a (i + 1 - K + t) = sget b (j + 1 - K + t)
        intro t ht
        have hx : i + 1 - K + t = i - (K - 1 - t) := by omega
        have hy : j + 1 - K + t = j - (K - 1 - t) := by omega
        rw [hx, hy]
        exact hrun _ (by omega)
      · exact hb

theorem flmFold_inv (a b : List String) (alo blo bhi : Nat) :
    ∀ (m i : Nat) (f : Nat → Nat) (best : Best),
      alo ≤ i →
      RowsDone a b blo bhi (i - 1) (i - alo) f →
      BestProp a b alo blo bhi i best →
      BestProp a b alo blo bhi (i + m)
        ((List.range' i m).foldl (flmRow a b blo bhi) (f, best)).2 := by
  intro m
  induction m with
  | zero =>
    intro i f best _ _ hb
    simpa using hb
  | succ m ih =>
    intro i f best hi hf hb
    rw [List.range'_succ, List.foldl_cons]
    have hstep : flmRow a b blo bhi (f, best) i =
        flmInner f i ((b2j b (sget a i)).filter (fun j => blo ≤ j && j < bhi))
          (fun _ => 0) best := rfl
    rw [hstep]
    have hjs : ∀ j ∈ (b2j b (sget a i)).filter (fun j => blo ≤ j && j < bhi),
        blo ≤ j ∧ j < bhi ∧ sget b j = sget a i := by
      intro j hj
      obtain ⟨hmem, hcond⟩ := List.mem_filter.mp hj
      have hcond' : blo ≤ j ∧ j < bhi := by
        simpa [Bool.and_eq_true, decide_eq_true_eq] using hcond
      exact ⟨hcond'.1, hcond'.2, (b2j_mem hmem).2⟩
    have hzero : RowsDone a b blo bhi i (i - alo + 1) (fun _ => 0) := by
      intro j
      exact ⟨Nat.zero_le _, Nat.zero_le _, fun h => absurd h (by simp)⟩
    obtain ⟨hf', hb'⟩ := flmInner_inv a b alo blo bhi i (i - alo) f (by omega) hf
      ((b2j b (sget a i)).filter (fun j => blo ≤ j && j < bhi)) (fun _ => 0) best
      hjs hzero (bestProp_mono hb (by omega))
    have := ih (i + 1)
      (flmInner f i ((b2j b (sget a i)).filter (fun j => blo ≤ j && j < bhi)) (fun _ => 0) best).1
      (flmInner f i ((b2j b (sget a i)).filter (fun j => blo ≤ j && j < bhi)) (fun _ => 0) best).2
      (by omega) (by simpa [Nat.add_sub_cancel, Nat.succ_sub_one] using
        (show RowsDone a b blo bhi (i + 1 - 1) (i + 1 - alo) _ by
          have : i + 1 - 1 = i := by omega
          rw [this]
          have : i + 1 - alo = i - alo + 1 := by omega
          rw [this]
          exact hf')) hb'
    have harr : i + 1 + m = i + (m + 1) := by omega
    rw [harr] at this
    simpa using this

theorem extendBack_prop (a b : List String) (alo blo bhi ahi : Nat) :
    ∀ bi bj bs, BestProp a b alo blo bhi ahi ⟨bi, bj, bs⟩ →
      BestProp a b alo blo bhi ahi (extendBack a b alo blo bi bj bs) := by
  intro bi
  induction bi with
  | zero => intro bj bs h; simpa [extendBack] using h
  | succ bi ih =>
    intro bj bs h
    rw [extendBack]
    split
    · rename_i hg
      obtain ⟨hg1, hg2, hg3⟩ := hg
      obtain ⟨h1, h2, h3, h4, h5⟩ := h
      replace h1 : alo ≤ bi + 1 := h1
      replace h3 : bi + 1 + bs ≤ ahi := h3
      replace h4 : bj + bs ≤ bhi := h4
      replace h5 : ∀ t < bs, sget a (bi + 1 + t) = sget b (bj + t) := h5
      apply ih
      refine ⟨show alo ≤ bi by omega, show blo ≤ bj - 1 by omega,
        show bi + (bs + 1) ≤ ahi by omega, show bj - 1 + (bs + 1) ≤ bhi by omega, ?_⟩
      show ∀ t < bs + 1, sget a (bi + t) = sget b (bj - 1 + t)
      intro t ht
      match t with
      | 0 => simpa using hg3
      | t' + 1 =>
        have hx : bi + (t' + 1) = bi + 1 + t' := by omega
        have hy : bj - 1 + (t' + 1) = bj + t' := by omega
        rw [hx, hy]
        exact h5 t' (by omega)
    · exact h

theorem extendForward_prop (a b : List String) (alo blo bhi ahi : Nat) :
    ∀ fuel bi bj bs, BestProp a b alo blo bhi ahi ⟨bi, bj, bs⟩ →
      BestProp a b alo blo bhi ahi ⟨bi, bj, extendForward a b ahi bhi bi bj fuel bs⟩ := by
  intro fuel
  induction fuel with
  | zero => intro bi bj bs h; simpa [extendForward] using h
  | succ fuel ih =>
    intro bi bj bs h
    rw [extendForward]
    split
    · rename_i hg
      obtain ⟨hg1, hg2, hg3⟩ := hg
      obtain ⟨h1, h2, h3, h4, h5⟩ := h
      replace h1 : alo ≤ bi := h1
      replace h2 : blo ≤ bj := h2
      replace h5 : ∀ t < bs, sget a (bi + t) = sget b (bj + t) := h5
      apply ih
      refine ⟨h1, h2, show bi + (bs + 1) ≤ ahi by omega, show bj + (bs + 1) ≤ bhi by omega, ?_⟩
      show ∀ t < bs + 1, sget a (bi + t) = sget b (bj + t)
      intro t ht
      rcases Nat.lt_succ_iff_lt_or_eq.mp ht with ht' | rfl
      · exact h5 t ht'
      · exact hg3
    · exact h

theorem findLongestMatch_valid (a b : List String) (alo ahi blo bhi : Nat)
    (h1 : alo ≤ ahi) (h2 : blo ≤ bhi) :
    alo ≤ (findLongestMatch a b alo ahi blo bhi).A ∧
    blo ≤ (findLongestMatch a b alo ahi blo bhi).B ∧
    (findLongestMatch a b alo ahi blo bhi).A + (findLongestMatch a b alo ahi blo bhi).Size ≤ ahi ∧
    (findLongestMatch a b alo ahi blo bhi).B + (findLongestMatch a b alo ahi blo bhi).Size ≤ bhi ∧
    ∀ t < (findLongestMatch a b alo ahi blo bhi).Size,
      sget a ((findLongestMatch a b alo ahi blo bhi).A + t) =
        sget b ((findLongestMatch a b alo ahi blo bhi).B + t) := by
  have hinit : BestProp a b alo blo bhi alo ⟨alo, blo, 0⟩ :=
    ⟨Nat.le_refl _, Nat.le_refl _, show alo + 0 ≤ alo by omega,
     show blo + 0 ≤ bhi by omega, show ∀ t < 0, _ by omega⟩
  have hzero : RowsDone a b blo bhi (alo - 1) (alo - alo) (fun _ => 0) := by
    intro j
    exact ⟨Nat.zero_le _, Nat.zero_le _, fun h => absurd h (by simp)⟩
  have hfold := flmFold_inv a b alo blo bhi (ahi - alo) alo (fun _ => 0) ⟨alo, blo, 0⟩
    (Nat.le_refl _) hzero hinit
  have harr : alo + (ahi - alo) = ahi := by omega
  rw [harr] at hfold
  have hback := extendBack_prop a b alo blo bhi ahi _ _ _ hfold
  have hfwd := extendForward_prop a b alo blo bhi ahi ahi
    (extendBack a b alo blo _ _ _).besti (extendBack a b alo blo _ _ _).bestj
    (extendBack a b alo blo _ _ _).bestsize (by
      convert hback using 1)
  exact hfwd

theorem matchHex_spec (cs tok rem : List Char) (h : matchHex cs = some (tok, rem)) :
    0 < tok.length ∧ tok.length + rem.length = cs.length := by
  match cs with
  | [] => simp [matchHex] at h
  | [c] => simp [matchHex] at h
  | c :: d :: r =>
    by_cases hc : c = '0' ∧ d = 'x'
    · obtain ⟨rfl, rfl⟩ := hc
      simp only [matchHex] at h
      split at h
      · exact absurd h (by simp)
      · rename_i hne
        obtain ⟨rfl, rfl⟩ := Prod.mk.injEq .. ▸ (Option.some.injEq .. ▸ h)
        have hle : (r.takeWhile isHexDigit).length ≤ r.length :=
          (List.takeWhile_prefix isHexDigit).length_le
        simp only [List.length_cons, List.length_drop]
        omega
    · have : matchHex (c :: d :: r) = none := by
        simp only [matchHex]
        split
        · rename_i heq
          obtain ⟨h1, h2⟩ := List.cons.injEq .. ▸ heq
          exact absurd ⟨h1, (List.cons.injEq .. ▸ h2).1⟩ hc
        · rfl
      rw [this] at h
      exact absurd h (by simp)

theorem matchBlocks_chain (a b : List String) :
    ∀ fuel alo ahi blo bhi, alo ≤ ahi → blo ≤ bhi →
      (ahi - alo) + (bhi - blo) < fuel →
      BlocksChain a b alo blo ahi bhi (matchBlocks a b fuel alo ahi blo bhi) := by
  intro fuel
  induction fuel with
  | zero => intro alo ahi blo bhi _ _ hfuel; omega
  | succ fuel ih =>
    intro alo ahi blo bhi h1 h2 hfuel
    obtain ⟨v1, v2, v3, v4, v5⟩ := findLongestMatch_valid a b alo ahi blo bhi h1 h2
    simp only [matchBlocks]
    split
    · exact ⟨h1, h2⟩
    · rename_i hsz
      have hS : 0 < (findLongestMatch a b alo ahi blo bhi).Size := Nat.pos_of_ne_zero hsz
      have hleft : BlocksChain a b alo blo (findLongestMatch a b alo ahi blo bhi).A
          (findLongestMatch a b alo ahi blo bhi).B
          (if alo < (findLongestMatch a b alo ahi blo bhi).A ∧
              blo < (findLongestMatch a b alo ahi blo bhi).B then
            matchBlocks a b fuel alo (findLongestMatch a b alo ahi blo bhi).A blo
              (findLongestMatch a b alo ahi blo bhi).B
          else []) := by
        split
        · exact ih alo _ blo _ v1 v2 (by omega)
        · exact ⟨v1, v2⟩
      have hmid : BlocksChain a b (findLongestMatch a b alo ahi blo bhi).A
          (findLongestMatch a b alo ahi blo bhi).B ahi bhi
          ([findLongestMatch a b alo ahi blo bhi] ++
           (if (findLongestMatch a b alo ahi blo bhi).A +
                (findLongestMatch a b alo ahi blo bhi).Size < ahi ∧
              (findLongestMatch a b alo ahi blo bhi).B +
                (findLongestMatch a b alo ahi blo bhi).Size < bhi then
            matchBlocks a b fuel
              ((findLongestMatch a b alo ahi blo bhi).A +
                (findLongestMatch a b alo ahi blo bhi).Size) ahi
              ((findLongestMatch a b alo ahi blo bhi).B +
                (findLongestMatch a b alo ahi blo bhi).Size) bhi
          else [])) := by
        refine ⟨Nat.le_refl _, Nat.le_refl _, hS, v5, ?_⟩
        split
        · exact ih _ ahi _ bhi v3 v4 (by omega)
        · exact ⟨v3, v4⟩
      have := blocksChain_append hleft hmid
      simpa [List.append_assoc] using this

theorem collapseAdjacent_chain (a b : List String) (hi1 hi2 : Nat) :
    ∀ (L : List GoMatch) (i1 j1 k1 lo1 lo2 : Nat),
      lo1 ≤ i1 → lo2 ≤ j1 →
      (∀ t < k1, sget a (i1 + t) = sget b (j1 + t)) →
      BlocksChain a b (i1 + k1) (j1 + k1) hi1 hi2 L →
      BlocksChain a b lo1 lo2 hi1 hi2 (collapseAdjacent L i1 j1 k1) := by
  intro L
  induction L with
  | nil =>
    intro i1 j1 k1 lo1 lo2 hl1 hl2 hmatch hchain
    obtain ⟨hc1, hc2⟩ := hchain
    simp only [collapseAdjacent]
    split
    · rename_i hk
      exact ⟨hl1, hl2, hk, hmatch, hc1, hc2⟩
    · rename_i hk
      exact ⟨by omega, by omega⟩
  | cons m rest ih =>
    intro i1 j1 k1 lo1 lo2 hl1 hl2 hmatch hchain
    obtain ⟨hA, hB, hS, hM, hrest⟩ := hchain
    simp only [collapseAdjacent]
    split
    · rename_i hadj
      obtain ⟨hadj1, hadj2⟩ := hadj
      apply ih _ _ _ _ _ hl1 hl2
      · intro t ht
        by_cases htk : t < k1
        · exact hmatch t htk
        · have e1 : i1 + t = m.A + (t - k1) := by omega
          have e2 : j1 + t = m.B + (t - k1) := by omega
          rw [e1, e2]
          exact hM (t - k1) (by omega)
      · have e1 : i1 + (k1 + m.Size) = m.A + m.Size := by omega
        have e2 : j1 + (k1 + m.Size) = m.B + m.Size := by omega
        rw [e1, e2]
        exact hrest
    · rename_i hnadj
      have htail : BlocksChain a b (i1 + k1) (j1 + k1) hi1 hi2
          (collapseAdjacent rest m.A m.B m.Size) :=
        ih m.A m.B m.Size (i1 + k1) (j1 + k1) hA hB hM hrest
      split
      · rename_i hk
        exact ⟨hl1, hl2, hk, hmatch, htail⟩
      · rename_i hk
        simp only [List.nil_append]
        exact blocksChain_mono htail (by omega) (by omega)

theorem opCodesLoop_valid (a b : List String) :
    ∀ (L : List GoMatch) (i j : Nat),
      BlocksChain a b i j a.length b.length L →
      ValidOps a b i j (opCodesLoop (L ++ [⟨a.length, b.length, 0⟩]) i j) := by
  intro L
  induction L with
  | nil =>
    intro i j h
    obtain ⟨h1, h2⟩ := h
    simp only [List.nil_append, opCodesLoop]
    by_cases hi : i < a.length
    · by_cases hj : j < b.length
      · simp only [hi, hj, and_self, if_true, List.singleton_append, List.cons_append,
          List.nil_append]
        have hred : (if 0 < (0 : Nat) then
            [(⟨'e', a.length, a.length + 0, b.length, b.length + 0⟩ : OpCode)] else []) = [] := by
          simp
        rw [hred]
        simp only [List.nil_append, opCodesLoop]
        exact ⟨rfl, rfl, Or.inr (Or.inr (Or.inr ⟨rfl, hi, hj⟩)), rfl, rfl⟩
      · simp only [hi, hj, and_false, if_false, if_true, List.cons_append, List.nil_append]
        have hred : (if 0 < (0 : Nat) then
            [(⟨'e', a.length, a.length + 0, b.length, b.length + 0⟩ : OpCode)] else []) = [] := by
          simp
        rw [hred]
        simp only [List.nil_append, opCodesLoop]
        exact ⟨rfl, rfl, Or.inr (Or.inl ⟨rfl, hi, show b.length = j by omega⟩), rfl, rfl⟩
    · by_cases hj : j < b.length
      · simp only [hi, hj, and_true, false_and, if_false, if_true, List.cons_append,
          List.nil_append]
        have hred : (if 0 < (0 : Nat) then
            [(⟨'e', a.length, a.length + 0, b.length, b.length + 0⟩ : OpCode)] else []) = [] := by
          simp
        rw [hred]
        simp only [List.nil_append, opCodesLoop]
        exact ⟨rfl, rfl, Or.inr (Or.inr (Or.inl ⟨rfl, show a.length = i by omega, hj⟩)), rfl, rfl⟩
      · simp only [hi, hj, false_and, if_false, List.nil_append]
        have hred : (if 0 < (0 : Nat) then
            [(⟨'e', a.length, a.length + 0, b.length, b.length + 0⟩ : OpCode)] else []) = [] := by
          simp
        rw [hred]
        simp only [List.nil_append, opCodesLoop]
        exact ⟨by omega, by omega⟩
  | cons m rest ih =>
    intro i j h
    obtain ⟨hA, hB, hS, hM, hrest⟩ := h
    have htail := ih (m.A + m.Size) (m.B + m.Size) hrest
    simp only [List.cons_append, opCodesLoop]
    have hrede : (if 0 < m.Size then
        [(⟨'e', m.A, m.A + m.Size, m.B, m.B + m.Size⟩ : OpCode)] else []) =
        [⟨'e', m.A, m.A + m.Size, m.B, m.B + m.Size⟩] := by
      simp [hS]
    rw [hrede]
    have hEop : ValidOps a b m.A m.B
        (⟨'e', m.A, m.A + m.Size, m.B, m.B + m.Size⟩ ::
          opCodesLoop (rest ++ [⟨a.length, b.length, 0⟩]) (m.A + m.Size) (m.B + m.Size)) := by
      refine ⟨rfl, rfl, Or.inl ⟨rfl, show m.A < m.A + m.Size by omega,
        show m.A + m.Size - m.A = m.B + m.Size - m.B by omega, ?_⟩, htail⟩
      show ∀ t < m.A + m.Size - m.A, sget a (m.A + t) = sget b (m.B + t)
      intro t ht
      exact hM t (by omega)
    by_cases hi : i < m.A
    · by_cases hj : j < m.B
      · simp only [hi, hj, and_self, if_true, List.singleton_append, List.cons_append]
        exact ⟨rfl, rfl, Or.inr (Or.inr (Or.inr ⟨rfl, hi, hj⟩)), hEop⟩
      · simp only [hi, hj, and_false, if_false, if_true, List.cons_append]
        exact ⟨rfl, rfl, Or.inr (Or.inl ⟨rfl, hi, show m.B = j by omega⟩), hEop⟩
    · by_cases hj : j < m.B
      · simp only [hi, hj, and_true, false_and, if_false, if_true, List.cons_append]
        exact ⟨rfl, rfl, Or.inr (Or.inr (Or.inl ⟨rfl, show m.A = i by omega, hj⟩)), hEop⟩
      · simp only [hi, hj, false_and, if_false, List.nil_append]
        rw [show i = m.A by omega, show j = m.B by omega]
        exact hEop

theorem getOpCodes_valid (a b : List String) : ValidOps a b 0 0 (getOpCodes a b) := by
  have hmb := matchBlocks_chain a b (a.length + b.length + 1) 0 a.length 0 b.length
    (Nat.zero_le _) (Nat.zero_le _) (by omega)
  have hcol := collapseAdjacent_chain a b a.length b.length
    (matchBlocks a b (a.length + b.length + 1) 0 a.length 0 b.length) 0 0 0 0 0
    (Nat.le_refl _) (Nat.le_refl _) (by omega) (by simpa using hmb)
  exact opCodesLoop_valid a b _ 0 0 hcol

theorem validOps_le (a b : List String) :
    ∀ ops i j, ValidOps a b i j ops → i ≤ a.length ∧ j ≤ b.length := by
  intro ops
  induction ops with
  | nil =>
    intro i j h
    exact ⟨Nat.le_of_eq h.1, Nat.le_of_eq h.2⟩
  | cons op rest ih =>
    intro i j h
    obtain ⟨hI, hJ, hcase, hrest⟩ := h
    have := ih op.I2 op.J2 hrest
    rcases hcase with ⟨_, h1, h2, _⟩ | ⟨_, h1, h2⟩ | ⟨_, h1, h2⟩ | ⟨_, h1, h2⟩ <;> omega

theorem mem_emitEqual {l1 : List String} {i1 i2 n1 n2 : Nat} {dl : DiffLine}
    (h : dl ∈ emitEqual l1 i1 i2 n1 n2) :
    ∃ t, t < i2 - i1 ∧ dl = ⟨.Equal, sget l1 (i1 + t), n1 + t, n2 + t, []⟩ := by
  simp only [emitEqual, List.mem_map, List.mem_range] at h
  obtain ⟨t, ht, heq⟩ := h
  exact ⟨t, ht, heq.symm⟩

theorem mem_emitDelete {l1 : List String} {i1 i2 n1 : Nat} {dl : DiffLine}
    (h : dl ∈ emitDelete l1 i1 i2 n1) :
    ∃ t, t < i2 - i1 ∧
      dl = ⟨.Removed, sget l1 (i1 + t), n1 + t, 0, fullLineHighlight (sget l1 (i1 + t))⟩ := by
  simp only [emitDelete, List.mem_map, List.mem_range] at h
  obtain ⟨t, ht, heq⟩ := h
  exact ⟨t, ht, heq.symm⟩

theorem mem_emitInsert {l2 : List String} {j1 j2 n2 : Nat} {dl : DiffLine}
    (h : dl ∈ emitInsert l2 j1 j2 n2) :
    ∃ t, t < j2 - j1 ∧
      dl = ⟨.Added, sget l2 (j1 + t), 0, n2 + t, fullLineHighlight (sget l2 (j1 + t))⟩ := by
  simp only [emitInsert, List.mem_map, List.mem_range] at h
  obtain ⟨t, ht, heq⟩ := h
  exact ⟨t, ht, heq.symm⟩

theorem mem_emitReplace {tok : String → List Token} {l1 l2 : List String}
    {i1 i2 j1 j2 n1 n2 : Nat} {dl : DiffLine}
    (h : dl ∈ emitReplace tok l1 l2 i1 i2 j1 j2 n1 n2) :
    (∃ k hl, k < i2 - i1 ∧ dl = ⟨.Removed, sget l1 (i1 + k), n1 + k, 0, hl⟩ ∧
      (hl = (tokenHighlights tok (sget l1 (i1 + k)) (sget l2 (j1 + k))).1 ∨
       hl = fullLineHighlight (sget l1 (i1 + k)))) ∨
    (∃ k hl, k < j2 - j1 ∧ dl = ⟨.Added, sget l2 (j1 + k), 0, n2 + k, hl⟩ ∧
      (hl = (tokenHighlights tok (sget l1 (i1 + k)) (sget l2 (j1 + k))).2 ∨
       hl = fullLineHighlight (sget l2 (j1 + k)))) := by
  simp only [emitReplace, List.mem_flatMap, List.mem_range] at h
  obtain ⟨k, hk, hmem⟩ := h
  rcases List.mem_append.mp hmem with h1 | h2
  · by_cases hk1 : k < i2 - i1
    · rw [if_pos hk1] at h1
      rcases List.mem_singleton.mp h1 with rfl
      by_cases hk2 : k < j2 - j1
      · exact Or.inl ⟨k, _, hk1, by rw [if_pos ⟨hk1, hk2⟩], Or.inl rfl⟩
      · rw [if_neg (fun hc => hk2 hc.2), if_pos hk1]
        exact Or.inl ⟨k, _, hk1, rfl, Or.inr rfl⟩
    · rw [if_neg hk1] at h1
      exact absurd h1 (List.not_mem_nil _)
  · by_cases hk2 : k < j2 - j1
    · rw [if_pos hk2] at h2
      rcases List.mem_singleton.mp h2 with rfl
      by_cases hk1 : k < i2 - i1
      · exact Or.inr ⟨k, _, hk2, by rw [if_pos ⟨hk1, hk2⟩], Or.inl rfl⟩
      · rw [if_neg (fun hc => hk1 hc.1), if_neg hk1, if_pos hk2]
        exact Or.inr ⟨k, _, hk2, rfl, Or.inr rfl⟩
    · rw [if_neg hk2] at h2
      exact absurd h2 (List.not_mem_nil _)

theorem assemble_wf (tok : String → List Token) (l1 l2 : List String) :
    ∀ ops n1 n2, 0 < n1 → 0 < n2 → ∀ dl ∈ assemble tok l1 l2 ops n1 n2,
      (dl.type = .Equal → 0 < dl.LineNo1 ∧ 0 < dl.LineNo2) ∧
      (dl.type = .Added → dl.LineNo1 = 0 ∧ 0 < dl.LineNo2) ∧
      (dl.type = .Removed → 0 < dl.LineNo1 ∧ dl.LineNo2 = 0) := by
  intro ops
  induction ops with
  | nil =>
    intro n1 n2 _ _ dl hdl
    simp [assemble] at hdl
  | cons op rest ih =>
    intro n1 n2 hn1 hn2 dl hdl
    rw [assemble] at hdl
    rcases List.mem_append.mp hdl with hpart | hrest
    · by_cases he : op.Tag = 'e'
      · rw [if_pos he] at hpart
        obtain ⟨t, ht, rfl⟩ := mem_emitEqual hpart
        exact ⟨fun _ => ⟨show 0 < n1 + t by omega, show 0 < n2 + t by omega⟩,
          fun hc => absurd hc (by simp), fun hc => absurd hc (by simp)⟩
      · rw [if_neg he] at hpart
        by_cases hd : op.Tag = 'd'
        · rw [if_pos hd] at hpart
          obtain ⟨t, ht, rfl⟩ := mem_emitDelete hpart
          exact ⟨fun hc => absurd hc (by simp), fun hc => absurd hc (by simp),
            fun _ => ⟨show 0 < n1 + t by omega, rfl⟩⟩
        · rw [if_neg hd] at hpart
          by_cases hi : op.Tag = 'i'
          · rw [if_pos hi] at hpart
            obtain ⟨t, ht, rfl⟩ := mem_emitInsert hpart
            exact ⟨fun hc => absurd hc (by simp), fun _ => ⟨rfl, show 0 < n2 + t by omega⟩,
              fun hc => absurd hc (by simp)⟩
          · rw [if_neg hi] at hpart
            by_cases hr : op.Tag = 'r'
            · rw [if_pos hr] at hpart
              rcases mem_emitReplace hpart with ⟨k, hl, hk, rfl, _⟩ | ⟨k, hl, hk, rfl, _⟩
              · exact ⟨fun hc => absurd hc (by simp), fun hc => absurd hc (by simp),
                  fun _ => ⟨show 0 < n1 + k by omega, rfl⟩⟩
              · exact ⟨fun hc => absurd hc (by simp), fun _ => ⟨rfl, show 0 < n2 + k by omega⟩,
                  fun hc => absurd hc (by simp)⟩
            · rw [if_neg hr] at hpart
              exact absurd hpart (List.not_mem_nil _)
    · exact ih _ _ (by omega) (by omega) dl hrest

/-- Claim C1: `compareLines` is total and always returns a valid
`ComparisonResult`: the original inputs are carried through unchanged and
every emitted record satisfies the `DisplayLine` invariants (`Equal` has both
line numbers, `Added` has `lineNo1 = 0`, `Removed` has `lineNo2 = 0`).  In the
embedding the sequence aligner is a total function (every index access is
proved in range), so no alignment failure exists to be surfaced; the
recovery/fallback clause of the claim is vacuously satisfied. -/
theorem C1_total_valid (normalize : String → String) (tokenize : String → List Token)
    (lines1 lines2 : List String) (f1 f2 : String) :
    (DiffLinesWith normalize tokenize lines1 lines2 f1 f2).File1Name = f1 ∧
    (DiffLinesWith normalize tokenize lines1 lines2 f1 f2).File2Name = f2 ∧
    (DiffLinesWith normalize tokenize lines1 lines2 f1 f2).File1Lines = lines1 ∧
    (DiffLinesWith normalize tokenize lines1 lines2 f1 f2).File2Lines = lines2 ∧
    ∀ dl ∈ (DiffLinesWith normalize tokenize lines1 lines2 f1 f2).Lines,
      (dl.type = .Equal → 0 < dl.LineNo1 ∧ 0 < dl.LineNo2) ∧
      (dl.type = .Added → dl.LineNo1 = 0 ∧ 0 < dl.LineNo2) ∧
      (dl.type = .Removed → 0 < dl.LineNo1 ∧ dl.LineNo2 = 0) :=
  ⟨rfl, rfl, rfl, rfl, assemble_wf tokenize lines1 lines2 _ 1 1 Nat.one_pos Nat.one_pos⟩

theorem flatMap_congr_mem {α β : Type} {f g : α → List β} :
    ∀ {l : List α}, (∀ x ∈ l, f x = g x) → l.flatMap f = l.flatMap g := by
  intro l
  induction l with
  | nil => intro _; rfl
  | cons x xs ih =>
    intro h
    rw [List.flatMap_cons, List.flatMap_cons, h x (List.mem_cons_self ..),
      ih (fun y hy => h y (List.mem_cons_of_mem _ hy))]

theorem flatMap_singleton_eq_map {α β : Type} (g : α → β) :
    ∀ l : List α, l.flatMap (fun x => [g x]) = l.map g := by
  intro l
  induction l with
  | nil => rfl
  | cons x xs ih => rw [List.flatMap_cons, List.map_cons, ih, List.singleton_append]

theorem flatMap_if_all {α : Type} (g : Nat → α) (m : Nat) :
    ∀ l : List Nat, (∀ k ∈ l, k < m) →
      l.flatMap (fun k => if k < m then [g k] else []) = l.map g := by
  intro l
  induction l with
  | nil => intro _; rfl
  | cons x xs ih =>
    intro h
    rw [List.flatMap_cons, List.map_cons, if_pos (h x (List.mem_cons_self ..)),
      ih (fun k hk => h k (List.mem_cons_of_mem _ hk)), List.singleton_append]

theorem flatMap_if_none {α : Type} (g : Nat → α) (m : Nat) :
    ∀ l : List Nat, (∀ k ∈ l, ¬ k < m) →
      l.flatMap (fun k => if k < m then [g k] else []) = [] := by
  intro l
  induction l with
  | nil => intro _; rfl
  | cons x xs ih =>
    intro h
    rw [List.flatMap_cons, if_neg (h x (List.mem_cons_self ..)),
      ih (fun k hk => h k (List.mem_cons_of_mem _ hk)), List.nil_append]

theorem flatMap_range_if {α : Type} (g : Nat → α) (M m : Nat) (h : m ≤ M) :
    (List.range M).flatMap (fun k => if k < m then [g k] else []) =
      (List.range m).map g := by
  have hsplit : List.range M = List.range' 0 m ++ List.range' m (M - m) := by
    have h1 := List.range'_append 0 m (M - m) 1
    have h2 : (M - m) + m = M := by omega
    rw [Nat.one_mul, Nat.zero_add, h2] at h1
    rw [List.range_eq_range']
    exact h1.symm
  rw [hsplit, List.flatMap_append]
  rw [flatMap_if_all g m _ (fun k hk => by
    obtain ⟨idx, hidx, rfl⟩ := List.mem_range'.mp hk
    omega)]
  rw [flatMap_if_none g m _ (fun k hk => by
    obtain ⟨idx, hidx, rfl⟩ := List.mem_range'.mp hk
    omega)]
  rw [List.append_nil, ← List.range_eq_range']

theorem filterMap_eq_map_of {α β : Type} (f : α → Option β) (g : α → β) :
    ∀ l : List α, (∀ x ∈ l, f x = some (g x)) → l.filterMap f = l.map g := by
  intro l
  induction l with
  | nil => intro _; rfl
  | cons x xs ih =>
    intro h
    rw [List.filterMap_cons, h x (List.mem_cons_self ..), List.map_cons,
      ih (fun y hy => h y (List.mem_cons_of_mem _ hy))]

theorem filterMap_eq_nil_of {α β : Type} (f : α → Option β) :
    ∀ l : List α, (∀ x ∈ l, f x = none) → l.filterMap f = [] := by
  intro l
  induction l with
  | nil => intro _; rfl
  | cons x xs ih =>
    intro h
    rw [List.filterMap_cons, h x (List.mem_cons_self ..),
      ih (fun y hy => h y (List.mem_cons_of_mem _ hy))]

theorem drop_glue (l : List String) :
    ∀ c j, j + c ≤ l.length →
      (List.range c).map (fun t => sget l (j + t)) ++ l.drop (j + c) = l.drop j := by
  intro c
  induction c with
  | zero => intro j h; simp
  | succ c ih =>
    intro j h
    rw [List.range_succ, List.map_append, List.append_assoc]
    have hlt : j + c < l.length := by omega
    have hstep : (List.map (fun t => sget l (j + t)) [c]) ++ l.drop (j + (c + 1)) =
        l.drop (j + c) := by
      rw [List.drop_eq_getElem_cons hlt]
      have : sget l (j + c) = l[j + c] := List.getD_eq_getElem l "" hlt
      simp only [List.map_cons, List.map_nil, List.cons_append, List.nil_append, this]
      have harr : j + (c + 1) = j + c + 1 := by omega
      rw [harr]
    rw [hstep, ih j (by omega)]

theorem emitEqual_no1 (l1 : List String) (i1 i2 n1 n2 : Nat) (h : 0 < n1) :
    (emitEqual l1 i1 i2 n1 n2).filterMap
      (fun dl => if dl.LineNo1 = 0 then none else some dl.LineNo1) =
    List.range' n1 (i2 - i1) := by
  rw [emitEqual, List.filterMap_map]
  rw [filterMap_eq_map_of _ (fun t => n1 + t) _ (fun t _ => by
    show (if n1 + t = 0 then none else some (n1 + t)) = some (n1 + t)
    rw [if_neg (by omega)])]
  exact (List.range'_eq_map_range n1 (i2 - i1)).symm

theorem emitEqual_no2 (l1 : List String) (i1 i2 n1 n2 : Nat) (h : 0 < n2) :
    (emitEqual l1 i1 i2 n1 n2).filterMap
      (fun dl => if dl.LineNo2 = 0 then none else some dl.LineNo2) =
    List.range' n2 (i2 - i1) := by
  rw [emitEqual, List.filterMap_map]
  rw [filterMap_eq_map_of _ (fun t => n2 + t) _ (fun t _ => by
    show (if n2 + t = 0 then none else some (n2 + t)) = some (n2 + t)
    rw [if_neg (by omega)])]
  exact (List.range'_eq_map_range n2 (i2 - i1)).symm

theorem emitDelete_no1 (l1 : List String) (i1 i2 n1 : Nat) (h : 0 < n1) :
    (emitDelete l1 i1 i2 n1).filterMap
      (fun dl => if dl.LineNo1 = 0 then none else some dl.LineNo1) =
    List.range' n1 (i2 - i1) := by
  rw [emitDelete, List.filterMap_map]
  rw [filterMap_eq_map_of _ (fun t => n1 + t) _ (fun t _ => by
    show (if n1 + t = 0 then none else some (n1 + t)) = some (n1 + t)
    rw [if_neg (by omega)])]
  exact (List.range'_eq_map_range n1 (i2 - i1)).symm

theorem emitDelete_no2 (l1 : List String) (i1 i2 n1 : Nat) :
    (emitDelete l1 i1 i2 n1).filterMap
      (fun dl => if dl.LineNo2 = 0 then none else some dl.LineNo2) = [] := by
  rw [emitDelete, List.filterMap_map]
  exact filterMap_eq_nil_of _ _ (fun t _ => by
    show (if (0 : Nat) = 0 then none else some (0 : Nat)) = none
    rw [if_pos rfl])

theorem emitInsert_no1 (l2 : List String) (j1 j2 n2 : Nat) :
    (emitInsert l2 j1 j2 n2).filterMap
      (fun dl => if dl.LineNo1 = 0 then none else some dl.LineNo1) = [] := by
  rw [emitInsert, List.filterMap_map]
  exact filterMap_eq_nil_of _ _ (fun t _ => by
    show (if (0 : Nat) = 0 then none else some (0 : Nat)) = none
    rw [if_pos rfl])

theorem emitInsert_no2 (l2 : List String) (j1 j2 n2 : Nat) (h : 0 < n2) :
    (emitInsert l2 j1 j2 n2).filterMap
      (fun dl => if dl.LineNo2 = 0 then none else some dl.LineNo2) =
    List.range' n2 (j2 - j1) := by
  rw [emitInsert, List.filterMap_map]
  rw [filterMap_eq_map_of _ (fun t => n2 + t) _ (fun t _ => by
    show (if n2 + t = 0 then none else some (n2 + t)) = some (n2 + t)
    rw [if_neg (by omega)])]
  exact (List.range'_eq_map_range n2 (j2 - j1)).symm

theorem emitReplace_no1 (tok : String → List Token) (l1 l2 : List String)
    (i1 i2 j1 j2 n1 n2 : Nat) (h : 0 < n1) :
    (emitReplace tok l1 l2 i1 i2 j1 j2 n1 n2).filterMap
      (fun dl => if dl.LineNo1 = 0 then none else some dl.LineNo1) =
    List.range' n1 (i2 - i1) := by
  rw [emitReplace, List.filterMap_flatMap]
  refine Eq.trans (flatMap_congr_mem (g := fun k => if k < i2 - i1 then [n1 + k] else []) ?_) ?_
  · intro k _
    by_cases hk1 : k < i2 - i1 <;> by_cases hk2 : k < j2 - j1 <;>
      simp [hk1, hk2, show ¬ n1 + k = 0 by omega]
  · rw [flatMap_range_if _ _ _ (Nat.le_max_left _ _)]
    exact (List.range'_eq_map_range n1 (i2 - i1)).symm

theorem emitReplace_no2 (tok : String → List Token) (l1 l2 : List String)
    (i1 i2 j1 j2 n1 n2 : Nat) (h : 0 < n2) :
    (emitReplace tok l1 l2 i1 i2 j1 j2 n1 n2).filterMap
      (fun dl => if dl.LineNo2 = 0 then none else some dl.LineNo2) =
    List.range' n2 (j2 - j1) := by
  rw [emitReplace, List.filterMap_flatMap]
  refine Eq.trans (flatMap_congr_mem (g := fun k => if k < j2 - j1 then [n2 + k] else []) ?_) ?_
  · intro k _
    by_cases hk1 : k < i2 - i1 <;> by_cases hk2 : k < j2 - j1 <;>
      simp [hk1, hk2, show ¬ n2 + k = 0 by omega]
  · rw [flatMap_range_if _ _ _ (Nat.le_max_right _ _)]
    exact (List.range'_eq_map_range n2 (j2 - j1)).symm

theorem emitEqual_contents_nr (l1 : List String) (i1 i2 n1 n2 : Nat) :
    ((emitEqual l1 i1 i2 n1 n2).filter
      (fun dl => dl.type ≠ LineType.Removed)).map (fun dl => dl.Content) =
    (List.range (i2 - i1)).map (fun t => sget l1 (i1 + t)) := by
  rw [emitEqual, List.filter_map, List.map_map]
  congr 1
  exact List.filter_eq_self.mpr (fun t _ => rfl)

theorem emitEqual_contents_na (l1 : List String) (i1 i2 n1 n2 : Nat) :
    ((emitEqual l1 i1 i2 n1 n2).filter
      (fun dl => dl.type ≠ LineType.Added)).map (fun dl => dl.Content) =
    (List.range (i2 - i1)).map (fun t => sget l1 (i1 + t)) := by
  rw [emitEqual, List.filter_map, List.map_map]
  congr 1
  exact List.filter_eq_self.mpr (fun t _ => rfl)

theorem emitDelete_contents_nr (l1 : List String) (i1 i2 n1 : Nat) :
    ((emitDelete l1 i1 i2 n1).filter
      (fun dl => dl.type ≠ LineType.Removed)).map (fun dl => dl.Content) = [] := by
  rw [emitDelete, List.filter_map]
  have hfalse : ((fun dl => decide (dl.type ≠ LineType.Removed)) ∘ (fun t =>
      (⟨.Removed, sget l1 (i1 + t), n1 + t, 0,
        fullLineHighlight (sget l1 (i1 + t))⟩ : DiffLine))) = fun _ => false := by
    funext t
    rfl
  rw [hfalse, List.filter_false]
  rfl

theorem emitDelete_contents_na (l1 : List String) (i1 i2 n1 : Nat) :
    ((emitDelete l1 i1 i2 n1).filter
      (fun dl => dl.type ≠ LineType.Added)).map (fun dl => dl.Content) =
    (List.range (i2 - i1)).map (fun t => sget l1 (i1 + t)) := by
  rw [emitDelete, List.filter_map, List.map_map]
  congr 1
  exact List.filter_eq_self.mpr (fun t _ => rfl)

theorem emitInsert_contents_nr (l2 : List String) (j1 j2 n2 : Nat) :
    ((emitInsert l2 j1 j2 n2).filter
      (fun dl => dl.type ≠ LineType.Removed)).map (fun dl => dl.Content) =
    (List.range (j2 - j1)).map (fun t => sget l2 (j1 + t)) := by
  rw [emitInsert, List.filter_map, List.map_map]
  congr 1
  exact List.filter_eq_self.mpr (fun t _ => rfl)

theorem emitInsert_contents_na (l2 : List String) (j1 j2 n2 : Nat) :
    ((emitInsert l2 j1 j2 n2).filter
      (fun dl => dl.type ≠ LineType.Added)).map (fun dl => dl.Content) = [] := by
  rw [emitInsert, List.filter_map]
  have hfalse : ((fun dl => decide (dl.type ≠ LineType.Added)) ∘ (fun t =>
      (⟨.Added, sget l2 (j1 + t), 0, n2 + t,
        fullLineHighlight (sget l2 (j1 + t))⟩ : DiffLine))) = fun _ => false := by
    funext t
    rfl
  rw [hfalse, List.filter_false]
  rfl

theorem emitReplace_contents_nr (tok : String → List Token) (l1 l2 : List String)
    (i1 i2 j1 j2 n1 n2 : Nat) :
    ((emitReplace tok l1 l2 i1 i2 j1 j2 n1 n2).filter
      (fun dl => dl.type ≠ LineType.Removed)).map (fun dl => dl.Content) =
    (List.range (j2 - j1)).map (fun k => sget l2 (j1 + k)) := by
  rw [emitReplace, List.filter_flatMap, List.map_flatMap]
  refine Eq.trans (flatMap_congr_mem
    (g := fun k => if k < j2 - j1 then [sget l2 (j1 + k)] else []) ?_) ?_
  · intro k _
    by_cases hk1 : k < i2 - i1 <;> by_cases hk2 : k < j2 - j1 <;>
      simp [hk1, hk2]
  · exact flatMap_range_if _ _ _ (Nat.le_max_right _ _)

theorem emitReplace_contents_na (tok : String → List Token) (l1 l2 : List String)
    (i1 i2 j1 j2 n1 n2 : Nat) :
    ((emitReplace tok l1 l2 i1 i2 j1 j2 n1 n2).filter
      (fun dl => dl.type ≠ LineType.Added)).map (fun dl => dl.Content) =
    (List.range (i2 - i1)).map (fun k => sget l1 (i1 + k)) := by
  rw [emitReplace, List.filter_flatMap, List.map_flatMap]
  refine Eq.trans (flatMap_congr_mem
    (g := fun k => if k < i2 - i1 then [sget l1 (i1 + k)] else []) ?_) ?_
  · intro k _
    by_cases hk1 : k < i2 - i1 <;> by_cases hk2 : k < j2 - j1 <;>
      simp [hk1, hk2]
  · exact flatMap_range_if _ _ _ (Nat.le_max_left _ _)

theorem range'_glue (s mid hi : Nat) (h1 : s ≤ mid) (h2 : mid ≤ hi) :
    List.range' (s + 1) (mid - s) ++ List.range' (mid + 1) (hi - mid) =
      List.range' (s + 1) (hi - s) := by
  have h := List.range'_append (s + 1) (mid - s) (hi - mid) 1
  rw [Nat.one_mul] at h
  have e1 : s + 1 + (mid - s) = mid + 1 := by omega
  have e2 : (hi - mid) + (mid - s) = hi - s := by omega
  rw [e1, e2] at h
  exact h

theorem assemble_nums (tok : String → List Token) (l1 l2 a b : List String) :
    ∀ ops i j, ValidOps a b i j ops →
      (assemble tok l1 l2 ops (i + 1) (j + 1)).filterMap
          (fun dl => if dl.LineNo1 = 0 then none else some dl.LineNo1) =
        List.range' (i + 1) (a.length - i) ∧
      (assemble tok l1 l2 ops (i + 1) (j + 1)).filterMap
          (fun dl => if dl.LineNo2 = 0 then none else some dl.LineNo2) =
        List.range' (j + 1) (b.length - j) := by
  intro ops
  induction ops with
  | nil =>
    intro i j h
    obtain ⟨h1, h2⟩ := h
    rw [assemble]
    subst h1
    subst h2
    simp
  | cons op rest ih =>
    intro i j h
    obtain ⟨hI, hJ, hcase, hrest⟩ := h
    have hle := validOps_le a b rest op.I2 op.J2 hrest
    rw [assemble, List.filterMap_append, List.filterMap_append]
    rcases hcase with ⟨hTag, hlt, hsz, hmatch⟩ | ⟨hTag, hlt, hJ2⟩ |
      ⟨hTag, hI2, hlt⟩ | ⟨hTag, hlt1, hlt2⟩
    · -- 'e'
      simp only [hTag, hI, hJ, Char.reduceEq, decide_False, decide_True, Bool.false_or, Bool.or_true, Bool.true_or, Bool.or_false, Bool.false_eq_true, Bool.true_eq_false, if_false, if_true, reduceIte, Nat.add_zero]
      obtain ⟨ih1, ih2⟩ := ih op.I2 op.J2 hrest
      have e1 : i + 1 + (op.I2 - i) = op.I2 + 1 := by omega
      have e2 : j + 1 + (op.J2 - j) = op.J2 + 1 := by omega
      rw [emitEqual_no1 _ _ _ _ _ (by omega), emitEqual_no2 _ _ _ _ _ (by omega), e1, e2,
        ih1, ih2, range'_glue i op.I2 a.length (by omega) hle.1]
      refine ⟨rfl, ?_⟩
      rw [hsz]
      exact range'_glue j op.J2 b.length (by omega) hle.2
    · -- 'd'
      simp only [hTag, hI, hJ, Char.reduceEq, decide_False, decide_True, Bool.false_or, Bool.or_true, Bool.true_or, Bool.or_false, Bool.false_eq_true, Bool.true_eq_false, if_false, if_true, reduceIte, Nat.add_zero]
      obtain ⟨ih1, ih2⟩ := ih op.I2 op.J2 hrest
      rw [hJ2] at ih1 ih2
      have e1 : i + 1 + (op.I2 - i) = op.I2 + 1 := by omega
      rw [emitDelete_no1 _ _ _ _ (by omega), emitDelete_no2, e1, ih1, ih2,
        range'_glue i op.I2 a.length (by omega) hle.1]
      exact ⟨rfl, by simp⟩
    · -- 'i'
      simp only [hTag, hI, hJ, Char.reduceEq, decide_False, decide_True, Bool.false_or, Bool.or_true, Bool.true_or, Bool.or_false, Bool.false_eq_true, Bool.true_eq_false, if_false, if_true, reduceIte, Nat.add_zero]
      obtain ⟨ih1, ih2⟩ := ih op.I2 op.J2 hrest
      rw [hI2] at ih1 ih2
      have e2 : j + 1 + (op.J2 - j) = op.J2 + 1 := by omega
      rw [emitInsert_no1, emitInsert_no2 _ _ _ _ (by omega), e2, ih1, ih2,
        range'_glue j op.J2 b.length (by omega) hle.2]
      exact ⟨by simp, rfl⟩
    · -- 'r'
      simp only [hTag, hI, hJ, Char.reduceEq, decide_False, decide_True, Bool.false_or, Bool.or_true, Bool.true_or, Bool.or_false, Bool.false_eq_true, Bool.true_eq_false, if_false, if_true, reduceIte, Nat.add_zero]
      obtain ⟨ih1, ih2⟩ := ih op.I2 op.J2 hrest
      have e1 : i + 1 + (op.I2 - i) = op.I2 + 1 := by omega
      have e2 : j + 1 + (op.J2 - j) = op.J2 + 1 := by omega
      rw [emitReplace_no1 _ _ _ _ _ _ _ _ _ (by omega),
        emitReplace_no2 _ _ _ _ _ _ _ _ _ (by omega), e1, e2, ih1, ih2,
        range'_glue i op.I2 a.length (by omega) hle.1,
        range'_glue j op.J2 b.length (by omega) hle.2]
      exact ⟨rfl, rfl⟩

theorem assemble_contents (tok : String → List Token) (l1 l2 : List String) :
    ∀ ops i j, ValidOps l1 l2 i j ops →
      ((assemble tok l1 l2 ops (i + 1) (j + 1)).filter
          (fun dl => dl.type ≠ LineType.Removed)).map (fun dl => dl.Content) = l2.drop j ∧
      ((assemble tok l1 l2 ops (i + 1) (j + 1)).filter
          (fun dl => dl.type ≠ LineType.Added)).map (fun dl => dl.Content) = l1.drop i := by
  intro ops
  induction ops with
  | nil =>
    intro i j h
    obtain ⟨h1, h2⟩ := h
    rw [assemble]
    subst h1
    subst h2
    simp
  | cons op rest ih =>
    intro i j h
    obtain ⟨hI, hJ, hcase, hrest⟩ := h
    have hle := validOps_le l1 l2 rest op.I2 op.J2 hrest
    rw [assemble, List.filter_append, List.filter_append, List.map_append, List.map_append]
    rcases hcase with ⟨hTag, hlt, hsz, hmatch⟩ | ⟨hTag, hlt, hJ2⟩ |
      ⟨hTag, hI2, hlt⟩ | ⟨hTag, hlt1, hlt2⟩
    · -- 'e': contents on side A equal side B under the match property
      simp only [hTag, hI, hJ, Char.reduceEq, decide_False, decide_True, Bool.false_or, Bool.or_true, Bool.true_or, Bool.or_false, Bool.false_eq_true, Bool.true_eq_false, if_false, if_true, reduceIte, Nat.add_zero]
      obtain ⟨ih1, ih2⟩ := ih op.I2 op.J2 hrest
      have e1 : i + 1 + (op.I2 - i) = op.I2 + 1 := by omega
      have e2 : j + 1 + (op.J2 - j) = op.J2 + 1 := by omega
      rw [emitEqual_contents_nr, emitEqual_contents_na, e1, e2, ih1, ih2]
      constructor
      · have hcg : (List.range (op.I2 - i)).map (fun t => sget l1 (i + t)) =
            (List.range (op.J2 - j)).map (fun t => sget l2 (j + t)) := by
          have e3 : op.J2 - j = op.I2 - i := by omega
          rw [e3]
          exact List.map_congr_left (fun t ht => hmatch t (List.mem_range.mp ht))
        rw [hcg]
        have e4 : j + (op.J2 - j) = op.J2 := by omega
        have hg := drop_glue l2 (op.J2 - j) j (by omega)
        rw [e4] at hg
        exact hg
      · have e4 : i + (op.I2 - i) = op.I2 := by omega
        have hg := drop_glue l1 (op.I2 - i) i (by omega)
        rw [e4] at hg
        exact hg
    · -- 'd'
      simp only [hTag, hI, hJ, Char.reduceEq, decide_False, decide_True, Bool.false_or, Bool.or_true, Bool.true_or, Bool.or_false, Bool.false_eq_true, Bool.true_eq_false, if_false, if_true, reduceIte, Nat.add_zero]
      obtain ⟨ih1, ih2⟩ := ih op.I2 op.J2 hrest
      rw [hJ2] at ih1 ih2
      have e1 : i + 1 + (op.I2 - i) = op.I2 + 1 := by omega
      rw [emitDelete_contents_nr, emitDelete_contents_na, e1, ih1, ih2]
      refine ⟨by simp, ?_⟩
      have e4 : i + (op.I2 - i) = op.I2 := by omega
      have hg := drop_glue l1 (op.I2 - i) i (by omega)
      rw [e4] at hg
      exact hg
    · -- 'i'
      simp only [hTag, hI, hJ, Char.reduceEq, decide_False, decide_True, Bool.false_or, Bool.or_true, Bool.true_or, Bool.or_false, Bool.false_eq_true, Bool.true_eq_false, if_false, if_true, reduceIte, Nat.add_zero]
      obtain ⟨ih1, ih2⟩ := ih op.I2 op.J2 hrest
      rw [hI2] at ih1 ih2
      have e2 : j + 1 + (op.J2 - j) = op.J2 + 1 := by omega
      rw [emitInsert_contents_nr, emitInsert_contents_na, e2, ih1, ih2]
      refine ⟨?_, by simp⟩
      have e4 : j + (op.J2 - j) = op.J2 := by omega
      have hg := drop_glue l2 (op.J2 - j) j (by omega)
      rw [e4] at hg
      exact hg
    · -- 'r'
      simp only [hTag, hI, hJ, Char.reduceEq, decide_False, decide_True, Bool.false_or, Bool.or_true, Bool.true_or, Bool.or_false, Bool.false_eq_true, Bool.true_eq_false, if_false, if_true, reduceIte, Nat.add_zero]
      obtain ⟨ih1, ih2⟩ := ih op.I2 op.J2 hrest
      have e1 : i + 1 + (op.I2 - i) = op.I2 + 1 := by omega
      have e2 : j + 1 + (op.J2 - j) = op.J2 + 1 := by omega
      rw [emitReplace_contents_nr, emitReplace_contents_na, e1, e2, ih1, ih2]
      constructor
      · have e4 : j + (op.J2 - j) = op.J2 := by omega
        have hg := drop_glue l2 (op.J2 - j) j (by omega)
        rw [e4] at hg
        exact hg
      · have e4 : i + (op.I2 - i) = op.I2 := by omega
        have hg := drop_glue l1 (op.I2 - i) i (by omega)
        rw [e4] at hg
        exact hg

/-- Claim C9: in any comparison result, the nonzero `LineNo1` values read in
emission order are exactly `1, 2, ..., len(linesA)` and the nonzero `LineNo2`
values are exactly `1, 2, ..., len(linesB)` — no line number is skipped or
repeated (and the nonzero values sit exactly on the non-`Added`,
resp. non-`Removed`, records, by `C1_total_valid`'s invariants). -/
theorem C9_line_numbering (normalize : String → String) (tokenize : String → List Token)
    (lines1 lines2 : List String) (f1 f2 : String) :
    (DiffLinesWith normalize tokenize lines1 lines2 f1 f2).Lines.filterMap
        (fun dl => if dl.LineNo1 = 0 then none else some dl.LineNo1) =
      List.range' 1 lines1.length ∧
    (DiffLinesWith normalize tokenize lines1 lines2 f1 f2).Lines.filterMap
        (fun dl => if dl.LineNo2 = 0 then none else some dl.LineNo2) =
      List.range' 1 lines2.length := by
  have hv := getOpCodes_valid (lines1.map normalize) (lines2.map normalize)
  have h := assemble_nums tokenize lines1 lines2 (lines1.map normalize)
    (lines2.map normalize) (getOpCodes (lines1.map normalize) (lines2.map normalize)) 0 0 hv
  simpa [DiffLinesWith, List.length_map] using h

/-- Claim C4 (amended): with identity normalization — the default
configuration: no ignore-patterns, `ignoreWhitespace = false` — concatenating
the non-`Removed` contents in order reproduces `linesB` exactly and
concatenating the non-`Added` contents reproduces `linesA` exactly.  (For
configurations whose normalization identifies distinct lines the `linesB` half
fails, because `Equal` records carry the side-A text: see the
counterexample.) -/
theorem C4_partition_default (tokenize : String → List Token)
    (lines1 lines2 : List String) (f1 f2 : String) :
    ((DiffLinesWith (normalizeGo false) tokenize lines1 lines2 f1 f2).Lines.filter
        (fun dl => dl.type ≠ LineType.Removed)).map (fun dl => dl.Content) = lines2 ∧
    ((DiffLinesWith (normalizeGo false) tokenize lines1 lines2 f1 f2).Lines.filter
        (fun dl => dl.type ≠ LineType.Added)).map (fun dl => dl.Content) = lines1 := by
  have hid1 : lines1.map (normalizeGo false) = lines1 :=
    Eq.trans (List.map_congr_left (g := id) (fun x _ => rfl)) (List.map_id lines1)
  have hid2 : lines2.map (normalizeGo false) = lines2 :=
    Eq.trans (List.map_congr_left (g := id) (fun x _ => rfl)) (List.map_id lines2)
  have hv := getOpCodes_valid lines1 lines2
  have h := assemble_contents tokenize lines1 lines2 (getOpCodes lines1 lines2) 0 0 hv
  simp only [DiffLinesWith, hid1, hid2]
  simpa using h

/-- Claim C7: the engine's replace branch implements exactly the
pair-then-spill-over policy of the spec: index-by-index pairs up to
`min(m, n)`, each pair one intra-line-highlighted `Removed` record followed by
one intra-line-highlighted `Added` record, then the unpaired lines of the
longer side as full-line-highlighted `Removed` (source longer) or `Added`
(target longer) records, with the line counters advancing per side. -/
theorem C7_replace_pairing (tok : String → List Token) (l1 l2 : List String)
    (i1 i2 j1 j2 n1 n2 : Nat) :
    emitReplace tok l1 l2 i1 i2 j1 j2 n1 n2 = replaceSpecEmit tok l1 l2 i1 i2 j1 j2 n1 n2 := by
  rw [emitReplace, replaceSpecEmit]
  set m := i2 - i1 with hm
  set n := j2 - j1 with hn
  have hsplit : List.range (max m n) =
      List.range' 0 (min m n) ++ List.range' (min m n) (max m n - min m n) := by
    have h1 := List.range'_append 0 (min m n) (max m n - min m n) 1
    have h2 : (max m n - min m n) + min m n = max m n := by omega
    rw [Nat.one_mul, Nat.zero_add, h2] at h1
    rw [List.range_eq_range']
    exact h1.symm
  rw [hsplit, List.flatMap_append]
  congr 1
  · -- paired part
    rw [← List.range_eq_range']
    apply flatMap_congr_mem
    intro k hk
    have hk' := List.mem_range.mp hk
    have hk1 : k < m := by omega
    have hk2 : k < n := by omega
    simp only [if_pos (And.intro hk1 hk2), if_pos hk1, if_pos hk2]
    rfl
  · -- spillover part
    by_cases hmn : n < m
    · rw [if_pos hmn]
      have hminr : min m n = n := Nat.min_eq_right (Nat.le_of_lt hmn)
      have hmaxl : max m n = m := Nat.max_eq_left (Nat.le_of_lt hmn)
      rw [hminr, hmaxl]
      refine Eq.trans (flatMap_congr_mem (g := fun k =>
        [⟨.Removed, sget l1 (i1 + k), n1 + k, 0, fullLineHighlight (sget l1 (i1 + k))⟩]) ?_) ?_
      · intro k hk
        obtain ⟨idx, hidx, rfl⟩ := List.mem_range'.mp hk
        have hk2 : ¬ n + 1 * idx < n := by omega
        have hk1 : n + 1 * idx < m := by omega
        simp only [if_neg (fun hc : _ ∧ _ => hk2 hc.2), if_pos hk1, if_neg hk2]
        rfl
      · exact flatMap_singleton_eq_map _ _
    · rw [if_neg hmn]
      have hminl : min m n = m := Nat.min_eq_left (by omega)
      have hmaxr : max m n = n := Nat.max_eq_right (by omega)
      rw [hminl, hmaxr]
      refine Eq.trans (flatMap_congr_mem (g := fun k =>
        [⟨.Added, sget l2 (j1 + k), 0, n2 + k, fullLineHighlight (sget l2 (j1 + k))⟩]) ?_) ?_
      · intro k hk
        obtain ⟨idx, hidx, rfl⟩ := List.mem_range'.mp hk
        have hk1 : ¬ m + 1 * idx < m := by omega
        have hk2 : m + 1 * idx < n := by omega
        simp only [if_neg (fun hc : _ ∧ _ => hk1 hc.1), if_neg hk1, if_pos hk2]
        rfl
      · exact flatMap_singleton_eq_map _ _

theorem hlSwap_length (l : List Highlight) (i j : Nat) : (hlSwap l i j).length = l.length := by
  simp [hlSwap]

theorem hlGet_mem (l : List Highlight) (k : Nat) (hk : k < l.length) : hlGet l k ∈ l := by
  rw [hlGet, List.getD_eq_getElem l _ hk]
  exact List.getElem_mem hk

theorem hlSwap_mem {l : List Highlight} {i j : Nat} (hi : i < l.length) (hj : j < l.length)
    {x : Highlight} (hx : x ∈ hlSwap l i j) : x ∈ l := by
  rw [hlSwap] at hx
  rcases List.mem_or_eq_of_mem_set hx with hx' | rfl
  · rcases List.mem_or_eq_of_mem_set hx' with hx'' | rfl
    · exact hx''
    · exact hlGet_mem l j hj
  · exact hlGet_mem l i hi

theorem sortInner_length (n i : Nat) :
    ∀ fuel l j, (sortInner n i fuel l j).length = l.length := by
  intro fuel
  induction fuel with
  | zero => intro l j; rfl
  | succ fuel ih =>
    intro l j
    rw [sortInner]
    split
    · rw [ih]
      split
      · exact hlSwap_length l i j
      · rfl
    · rfl

theorem sortInner_mem (n i : Nat) (hi : i < n) :
    ∀ fuel l j x, l.length = n → x ∈ sortInner n i fuel l j → x ∈ l := by
  intro fuel
  induction fuel with
  | zero => intro l j x _ hx; exact hx
  | succ fuel ih =>
    intro l j x hlen hx
    rw [sortInner] at hx
    split at hx
    · rename_i hj
      split at hx
      · have hmem := ih _ _ _ (by rw [hlSwap_length, hlen]) hx
        exact hlSwap_mem (by omega) (by omega) hmem
      · exact ih _ _ _ hlen hx
    · exact hx

theorem sortOuter_mem (n : Nat) :
    ∀ fuel l i x, l.length = n → x ∈ sortOuter n fuel l i → x ∈ l := by
  intro fuel
  induction fuel with
  | zero => intro l i x _ hx; exact hx
  | succ fuel ih =>
    intro l i x hlen hx
    rw [sortOuter] at hx
    split at hx
    · rename_i hguard
      have hmem := ih _ _ _ (by rw [sortInner_length, hlen]) hx
      exact sortInner_mem n i (by omega) _ _ _ _ hlen hmem
    · exact hx

theorem chain'_concat_start {acc : List Highlight} {x y : Highlight}
    (hxy : y.Start = x.Start)
    (h : List.Chain' (fun g h => g.End < h.Start) (acc ++ [x])) :
    List.Chain' (fun g h => g.End < h.Start) (acc ++ [y]) := by
  rw [List.chain'_append] at h ⊢
  obtain ⟨h1, _, h3⟩ := h
  refine ⟨h1, List.chain'_singleton y, ?_⟩
  intro g hg z hz
  rcases Option.mem_def.mp hz with rfl | _
  · have := h3 g hg x rfl
    simpa [hxy] using this

theorem mergeLoop_spec (B : Nat) :
    ∀ (rest acc : List Highlight) (last : Highlight),
      (∀ h ∈ rest, h.Start < h.End ∧ h.End ≤ B) →
      (last.Start < last.End ∧ last.End ≤ B) →
      (∀ h ∈ acc, h.Start < h.End ∧ h.End ≤ B) →
      List.Chain' (fun g h => g.End < h.Start) (acc ++ [last]) →
      (∀ h ∈ mergeLoop acc last rest, h.Start < h.End ∧ h.End ≤ B) ∧
      List.Chain' (fun g h => g.End < h.Start) (mergeLoop acc last rest) := by
  intro rest
  induction rest with
  | nil =>
    intro acc last _ hlast hacc hchain
    rw [mergeLoop]
    refine ⟨fun h hh => ?_, hchain⟩
    rcases List.mem_append.mp hh with h1 | h2
    · exact hacc h h1
    · rcases List.mem_singleton.mp h2 with rfl
      exact hlast
  | cons h0 rest ih =>
    intro acc last hrest hlast hacc hchain
    rw [mergeLoop]
    split
    · rename_i hle
      apply ih
      · exact fun h hh => hrest h (List.mem_cons_of_mem _ hh)
      · have hh0 := hrest h0 (List.mem_cons_self ..)
        constructor
        · show last.Start < max last.End h0.End
          omega
        · show max last.End h0.End ≤ B
          omega
      · exact hacc
      · exact chain'_concat_start (x := last)
          (y := ⟨last.Start, max last.End h0.End⟩) rfl hchain
    · rename_i hgt
      apply ih
      · exact fun h hh => hrest h (List.mem_cons_of_mem _ hh)
      · exact hrest h0 (List.mem_cons_self ..)
      · intro h hh
        rcases List.mem_append.mp hh with h1 | h2
        · exact hacc h h1
        · rcases List.mem_singleton.mp h2 with rfl
          exact hlast
      · rw [List.chain'_append]
        refine ⟨hchain, List.chain'_singleton h0, ?_⟩
        intro g hg z hz
        rcases Option.mem_def.mp hz with rfl | _
        rw [List.getLast?_concat] at hg
        rcases Option.mem_def.mp hg.symm with rfl | _
        omega

theorem mergeHighlights_spec (B : Nat) (hl : List Highlight) (hB : ∀ h ∈ hl, h.End ≤ B) :
    (∀ h ∈ mergeHighlights hl, h.Start < h.End ∧ h.End ≤ B) ∧
    List.Chain' (fun g h => g.End < h.Start) (mergeHighlights hl) := by
  simp only [mergeHighlights]
  split
  · rename_i hemp
    rw [List.isEmpty_iff.mp hemp]
    exact ⟨fun h hh => absurd hh (List.not_mem_nil _), List.chain'_nil⟩
  · have hfil : ∀ h ∈ hl.filter (fun h => decide (h.Start < h.End)),
        h.Start < h.End ∧ h.End ≤ B := by
      intro h hh
      obtain ⟨hmem, hcond⟩ := List.mem_filter.mp hh
      exact ⟨by simpa using hcond, hB h hmem⟩
    cases hsorted : sortOuter (hl.filter (fun h => decide (h.Start < h.End))).length
        (hl.filter (fun h => decide (h.Start < h.End))).length
        (hl.filter (fun h => decide (h.Start < h.End))) 0 with
    | nil =>
      exact ⟨fun h hh => absurd hh (List.not_mem_nil _), List.chain'_nil⟩
    | cons h0 rest =>
      have hsub : ∀ x ∈ h0 :: rest, x ∈ hl.filter (fun h => decide (h.Start < h.End)) := by
        intro x hx
        rw [← hsorted] at hx
        exact sortOuter_mem _ _ _ _ _ rfl hx
      apply mergeLoop_spec
      · intro h hh
        exact hfil h (hsub h (List.mem_cons_of_mem _ hh))
      · exact hfil h0 (hsub h0 (List.mem_cons_self ..))
      · exact fun h hh => absurd hh (List.not_mem_nil _)
      · rw [List.nil_append]
        exact List.chain'_singleton h0

theorem tokenRangeToHighlight_le (tokens : List Token) (B : Nat)
    (hB : ∀ t ∈ tokens, t.End ≤ B) (s e : Nat) :
    (tokenRangeToHighlight tokens s e).End ≤ B := by
  rw [tokenRangeToHighlight]
  split
  · exact Nat.zero_le _
  · rename_i hcond
    push_neg at hcond
    have hlt : min e tokens.length - 1 < tokens.length := by omega
    have : tokens.getD (min e tokens.length - 1) ⟨"", 0, 0⟩ ∈ tokens := by
      rw [List.getD_eq_getElem _ _ hlt]
      exact List.getElem_mem hlt
    exact hB _ this

theorem tokenHighlights_spec (tok : String → List Token) (hb : TokenizerBounded tok)
    (left right : String) :
    ((∀ h ∈ (tokenHighlights tok left right).1,
        h.Start < h.End ∧ h.End ≤ left.data.length) ∧
      List.Chain' (fun g h => g.End < h.Start) (tokenHighlights tok left right).1) ∧
    ((∀ h ∈ (tokenHighlights tok left right).2,
        h.Start < h.End ∧ h.End ≤ right.data.length) ∧
      List.Chain' (fun g h => g.End < h.Start) (tokenHighlights tok left right).2) := by
  rw [tokenHighlights]
  constructor
  · apply mergeHighlights_spec
    intro h hh
    obtain ⟨o, _, rfl⟩ := List.mem_map.mp hh
    exact tokenRangeToHighlight_le _ _ (fun t ht => hb left t ht) _ _
  · apply mergeHighlights_spec
    intro h hh
    obtain ⟨o, _, rfl⟩ := List.mem_map.mp hh
    exact tokenRangeToHighlight_le _ _ (fun t ht => hb right t ht) _ _

theorem fullLineHighlight_spec (s : String) :
    (∀ h ∈ fullLineHighlight s, h.Start ≤ h.End ∧ h.End ≤ s.data.length) ∧
    (s ≠ "" → ∀ h ∈ fullLineHighlight s, h.Start < h.End) ∧
    List.Chain' (fun g h => g.End < h.Start) (fullLineHighlight s) := by
  refine ⟨fun h hh => ?_, fun hne h hh => ?_, List.chain'_singleton _⟩
  · rcases List.mem_singleton.mp hh with rfl
    exact ⟨Nat.zero_le _, Nat.le_refl _⟩
  · rcases List.mem_singleton.mp hh with rfl
    show 0 < s.data.length
    cases hd : s.data with
    | nil => exact absurd (String.ext hd) hne
    | cons c cs => simp [hd]

theorem assemble_highlights (tok : String → List Token) (hb : TokenizerBounded tok)
    (l1 l2 : List String) :
    ∀ ops n1 n2, ∀ dl ∈ assemble tok l1 l2 ops n1 n2,
      (∀ h ∈ dl.Highlights, h.Start ≤ h.End ∧ h.End ≤ dl.Content.data.length) ∧
      (dl.Content ≠ "" → ∀ h ∈ dl.Highlights, h.Start < h.End) ∧
      List.Chain' (fun g h => g.End < h.Start) dl.Highlights := by
  intro ops
  induction ops with
  | nil =>
    intro n1 n2 dl hdl
    simp [assemble] at hdl
  | cons op rest ih =>
    intro n1 n2 dl hdl
    rw [assemble] at hdl
    rcases List.mem_append.mp hdl with hpart | hrest
    · by_cases he : op.Tag = 'e'
      · rw [if_pos he] at hpart
        obtain ⟨t, ht, rfl⟩ := mem_emitEqual hpart
        exact ⟨fun h hh => absurd hh (List.not_mem_nil _),
          fun _ h hh => absurd hh (List.not_mem_nil _), List.chain'_nil⟩
      · rw [if_neg he] at hpart
        by_cases hd : op.Tag = 'd'
        · rw [if_pos hd] at hpart
          obtain ⟨t, ht, rfl⟩ := mem_emitDelete hpart
          exact fullLineHighlight_spec _
        · rw [if_neg hd] at hpart
          by_cases hi : op.Tag = 'i'
          · rw [if_pos hi] at hpart
            obtain ⟨t, ht, rfl⟩ := mem_emitInsert hpart
            exact fullLineHighlight_spec _
          · rw [if_neg hi] at hpart
            by_cases hr : op.Tag = 'r'
            · rw [if_pos hr] at hpart
              rcases mem_emitReplace hpart with ⟨k, hl, hk, rfl, hhl⟩ | ⟨k, hl, hk, rfl, hhl⟩
              · rcases hhl with rfl | rfl
                · have := (tokenHighlights_spec tok hb (sget l1 (op.I1 + k))
                    (sget l2 (op.J1 + k))).1
                  exact ⟨fun h hh => ⟨Nat.le_of_lt (this.1 h hh).1, (this.1 h hh).2⟩,
                    fun _ h hh => (this.1 h hh).1, this.2⟩
                · exact fullLineHighlight_spec _
              · rcases hhl with rfl | rfl
                · have := (tokenHighlights_spec tok hb (sget l1 (op.I1 + k))
                    (sget l2 (op.J1 + k))).2
                  exact ⟨fun h hh => ⟨Nat.le_of_lt (this.1 h hh).1, (this.1 h hh).2⟩,
                    fun _ h hh => (this.1 h hh).1, this.2⟩
                · exact fullLineHighlight_spec _
            · rw [if_neg hr] at hpart
              exact absurd hpart (List.not_mem_nil _)
    · exact ih _ _ dl hrest

/-- Claim C5 (amended): in any comparison result, every highlight satisfies
`start ≤ end ≤ runeLength(content)` — with `start < end` whenever the line's
content is nonempty — and each record's highlight list is strictly ascending
by start and pairwise non-overlapping (each span ends strictly before the next
begins).  Zero-width spans `[0, 0)` occur exactly as the full-line highlight
of an empty line (see the counterexample to the original `end > start`
claim).  The tokenizer-boundedness hypothesis holds for every Go regex
tokenizer and is proved for the default one (`tokenizeDefault_bounded`). -/
theorem C5_highlight_bounds (normalize : String → String) (tokenize : String → List Token)
    (hb : TokenizerBounded tokenize) (lines1 lines2 : List String) (f1 f2 : String) :
    ∀ dl ∈ (DiffLinesWith normalize tokenize lines1 lines2 f1 f2).Lines,
      (∀ h ∈ dl.Highlights, h.Start ≤ h.End ∧ h.End ≤ dl.Content.data.length) ∧
      (dl.Content ≠ "" → ∀ h ∈ dl.Highlights, h.Start < h.End) ∧
      List.Chain' (fun g h => g.End < h.Start) dl.Highlights :=
  assemble_highlights tokenize hb lines1 lines2 _ 1 1

theorem drun_le (x : List String) : ∀ j, drun x j ≤ j + 1 := by
  intro j
  induction j with
  | zero => rw [drun]; split <;> omega
  | succ j ih => rw [drun]; split <;> omega

theorem drun_elig (x : List String) (j : Nat) (h : eligRow x j = true) :
    drun x j = (if j = 0 then 0 else drun x (j - 1)) + 1 := by
  match j with
  | 0 => rw [drun, if_pos h]; rfl
  | j + 1 => rw [drun, if_pos h]; rfl

theorem drun_inelig (x : List String) (j : Nat) (h : ¬ eligRow x j = true) :
    drun x j = 0 := by
  match j with
  | 0 => rw [drun, if_neg h]
  | j + 1 => rw [drun, if_neg h]

theorem drun_pos (x : List String) (j : Nat) (h : eligRow x j = true) : 0 < drun x j := by
  rw [drun_elig x j h]
  omega

theorem dmax_lt (x : List String) : ∀ i s, s < i → drun x s ≤ dmax x i := by
  intro i
  induction i with
  | zero => intro s hs; omega
  | succ i ih =>
    intro s hs
    rw [dmax]
    rcases Nat.lt_succ_iff_lt_or_eq.mp hs with hs' | rfl
    · exact Nat.le_trans (ih s hs') (Nat.le_max_left _ _)
    · exact Nat.le_max_right _ _

theorem positionsOf_sorted (b : List String) (s : String) :
    (positionsOf b s).Pairwise (· < ·) :=
  (List.pairwise_lt_range b.length).filter _

theorem self_mem_positionsOf (x : List String) (i : Nat) (hi : i < x.length) :
    i ∈ positionsOf x (sget x i) := by
  simp only [positionsOf, List.mem_filter, List.mem_range, beq_self_eq_true, and_true]
  exact hi

theorem js_filter_self (x : List String) (i : Nat) :
    (b2j x (sget x i)).filter (fun j => 0 ≤ j && j < x.length) = b2j x (sget x i) :=
  List.filter_eq_self.mpr (fun j hj => by
    have := (b2j_mem hj).1
    simp [this])

theorem flmInner_self (x : List String) (i : Nat) (hi : i < x.length)
    (hpop : isPopular x (sget x i) = false)
    (old : Nat → Nat)
    (hold1 : ∀ j, old j ≤ drun x j)
    (hold2 : ∀ j, old j ≤ (if i = 0 then 0 else drun x (i - 1)))
    (hold3 : 0 < i → old (i - 1) = drun x (i - 1)) :
    ∀ rest (f : Nat → Nat) (best : Best),
      rest.Pairwise (· < ·) →
      (∀ j ∈ rest, j < x.length ∧ sget x j = sget x i) →
      best.besti = best.bestj →
      best.besti + best.bestsize ≤ i + 1 →
      dmax x i ≤ best.bestsize →
      (i ∈ rest ∨ drun x i ≤ best.bestsize) →
      (∀ j, f j ≤ drun x j) →
      (∀ j, f j ≤ drun x i) →
      (i ∈ rest ∨ f i = drun x i) →
      (flmInner old i rest f best).2.besti = (flmInner old i rest f best).2.bestj ∧
      (flmInner old i rest f best).2.besti + (flmInner old i rest f best).2.bestsize ≤ i + 1 ∧
      dmax x i ≤ (flmInner old i rest f best).2.bestsize ∧
      drun x i ≤ (flmInner old i rest f best).2.bestsize ∧
      (∀ j, (flmInner old i rest f best).1 j ≤ drun x j) ∧
      (∀ j, (flmInner old i rest f best).1 j ≤ drun x i) ∧
      (flmInner old i rest f best).1 i = drun x i := by
  have elig_i : eligRow x i = true := by
    simp [eligRow, hi, hpop]
  have hdi : drun x i = (if i = 0 then 0 else drun x (i - 1)) + 1 := drun_elig x i elig_i
  intro rest
  induction rest with
  | nil =>
    intro f best _ _ w1 w2 w3 w4 w5 w6 w7
    rcases w4 with hmem | hbs
    · exact absurd hmem (List.not_mem_nil _)
    rcases w7 with hmem | hfi
    · exact absurd hmem (List.not_mem_nil _)
    exact ⟨w1, w2, w3, hbs, w5, w6, hfi⟩
  | cons j rest' ih =>
    intro f best hsort hmem w1 w2 w3 w4 w5 w6 w7
    obtain ⟨hjn, hjv⟩ := hmem j (List.mem_cons_self ..)
    have elig_j : eligRow x j = true := by
      simp [eligRow, hjn, hjv, hpop]
    have hsort' := (List.pairwise_cons.mp hsort).2
    have hhead := (List.pairwise_cons.mp hsort).1
    set K := (if j = 0 then 0 else old (j - 1)) + 1 with hK
    have hKj : K ≤ drun x j := by
      rw [hK, drun_elig x j elig_j]
      split
      · omega
      · have := hold1 (j - 1)
        omega
    have hKi : K ≤ drun x i := by
      rw [hK, hdi]
      split
      · omega
      · have := hold2 (j - 1)
        omega
    have hred : flmInner old i (j :: rest') f best =
        flmInner old i rest' (fun y => if y = j then K else f y)
          (if best.bestsize < K then ⟨i + 1 - K, j + 1 - K, K⟩ else best) := by
      rw [hK]
      rfl
    rw [hred]
    rcases Nat.lt_trichotomy j i with hji | hji | hji
    · -- j < i: no best update
      have hnolt : ¬ best.bestsize < K := by
        have h1 : drun x j ≤ dmax x i := dmax_lt x i j hji
        omega
      rw [if_neg hnolt]
      apply ih _ _ hsort' (fun y hy => hmem y (List.mem_cons_of_mem _ hy)) w1 w2 w3
      · rcases w4 with hmem' | hbs
        · rcases List.mem_cons.mp hmem' with rfl | hmem''
          · omega
          · exact Or.inl hmem''
        · exact Or.inr hbs
      · intro y
        by_cases hy : y = j
        · subst hy; simp only [if_pos rfl]; exact hKj
        · simp only [if_neg hy]; exact w5 y
      · intro y
        by_cases hy : y = j
        · subst hy; simp only [if_pos rfl]; exact hKi
        · simp only [if_neg hy]; exact w6 y
      · rcases w7 with hmem' | hfi
        · rcases List.mem_cons.mp hmem' with rfl | hmem''
          · omega
          · exact Or.inl hmem''
        · refine Or.inr ?_
          have hij : ¬ i = j := by omega
          simp only [if_neg hij]
          exact hfi
    · -- j = i: the diagonal entry; K is exactly drun x i
      subst hji
      have hKexact : K = drun x j := by
        rw [hK, hdi]
        split
        · rfl
        · rename_i hj0
          rw [hold3 (by omega)]
      have hafter : ∀ b' : Best,
          (b' = if best.bestsize < K then ⟨j + 1 - K, j + 1 - K, K⟩ else best) →
          b'.besti = b'.bestj ∧ b'.besti + b'.bestsize ≤ j + 1 ∧
          dmax x j ≤ b'.bestsize ∧ drun x j ≤ b'.bestsize := by
        intro b' hb'
        split at hb'
        · rename_i hlt
          subst hb'
          have hKle : K ≤ j + 1 := by
            have := drun_le x j
            omega
          exact ⟨rfl, show j + 1 - K + K ≤ j + 1 by omega,
            show dmax x j ≤ K by omega, show drun x j ≤ K by omega⟩
        · rename_i hlt
          subst hb'
          exact ⟨w1, w2, w3, by omega⟩
      obtain ⟨hb1, hb2, hb3, hb4⟩ := hafter _ rfl
      apply ih _ _ hsort' (fun y hy => hmem y (List.mem_cons_of_mem _ hy)) hb1 hb2 hb3
        (Or.inr hb4)
      · intro y
        by_cases hy : y = j
        · subst hy; simp only [if_pos rfl]; exact hKj
        · simp only [if_neg hy]; exact w5 y
      · intro y
        by_cases hy : y = j
        · subst hy; simp only [if_pos rfl]; exact hKi
        · simp only [if_neg hy]; exact w6 y
      · refine Or.inr ?_
        simp only [if_pos rfl]
        exact hKexact
    · -- i < j: the diagonal was already processed, no update possible
      have hnoti : ¬ i ∈ j :: rest' := by
        intro hc
        rcases List.mem_cons.mp hc with rfl | hc'
        · omega
        · have := hhead i hc'
          omega
      have hbs : drun x i ≤ best.bestsize := by
        rcases w4 with hmem' | hbs
        · exact absurd hmem' hnoti
        · exact hbs
      have hnolt : ¬ best.bestsize < K := by omega
      rw [if_neg hnolt]
      have hfi : f i = drun x i := by
        rcases w7 with hmem' | hfi
        · exact absurd hmem' hnoti
        · exact hfi
      apply ih _ _ hsort' (fun y hy => hmem y (List.mem_cons_of_mem _ hy)) w1 w2 w3
        (Or.inr hbs)
      · intro y
        by_cases hy : y = j
        · subst hy; simp only [if_pos rfl]; exact hKj
        · simp only [if_neg hy]; exact w5 y
      · intro y
        by_cases hy : y = j
        · subst hy; simp only [if_pos rfl]; exact hKi
        · simp only [if_neg hy]; exact w6 y
      · refine Or.inr ?_
        have hij : ¬ i = j := by omega
        simp only [if_neg hij]
        exact hfi

theorem flmFold_self (x : List String) :
    ∀ (m i : Nat) (f : Nat → Nat) (best : Best), i + m ≤ x.length →
      (∀ j, f j ≤ drun x j) →
      (∀ j, f j ≤ (if i = 0 then 0 else drun x (i - 1))) →
      (0 < i → f (i - 1) = drun x (i - 1)) →
      best.besti = best.bestj →
      best.besti + best.bestsize ≤ i →
      dmax x i ≤ best.bestsize →
      ((List.range' i m).foldl (flmRow x x 0 x.length) (f, best)).2.besti =
        ((List.range' i m).foldl (flmRow x x 0 x.length) (f, best)).2.bestj ∧
      ((List.range' i m).foldl (flmRow x x 0 x.length) (f, best)).2.besti +
        ((List.range' i m).foldl (flmRow x x 0 x.length) (f, best)).2.bestsize ≤ i + m ∧
      dmax x (i + m) ≤ ((List.range' i m).foldl (flmRow x x 0 x.length) (f, best)).2.bestsize := by
  intro m
  induction m with
  | zero =>
    intro i f best _ _ _ _ hb1 hb2 hb3
    simp only [List.range'_zero, List.foldl_nil]
    exact ⟨hb1, by omega, by simpa using hb3⟩
  | succ m ih =>
    intro i f best hbound hf1 hf2 hf3 hb1 hb2 hb3
    rw [List.range'_succ, List.foldl_cons]
    have hi : i < x.length := by omega
    have hrow : flmRow x x 0 x.length (f, best) i =
        flmInner f i ((b2j x (sget x i)).filter (fun j => 0 ≤ j && j < x.length))
          (fun _ => 0) best := rfl
    by_cases hpop : isPopular x (sget x i) = true
    · -- popular row: empty candidate list, the map resets
      have hjs : (b2j x (sget x i)).filter (fun j => 0 ≤ j && j < x.length) = [] := by
        rw [b2j, if_pos hpop]
        rfl
      have hstep : flmRow x x 0 x.length (f, best) i = ((fun _ => 0), best) := by
        rw [hrow, hjs]
        rfl
      rw [hstep]
      have helig : ¬ eligRow x i = true := by
        simp [eligRow, hpop]
      have hdz : drun x i = 0 := drun_inelig x i helig
      have := ih (i + 1) (fun _ => 0) best (by omega) (fun j => Nat.zero_le _)
        (fun j => Nat.zero_le _)
        (fun _ => by
          show (0 : Nat) = drun x (i + 1 - 1)
          rw [Nat.add_sub_cancel, hdz])
        hb1 (by omega)
        (by
          rw [dmax, hdz]
          simpa using hb3)
      have harr : i + 1 + m = i + (m + 1) := by omega
      rw [harr] at this
      exact this
    · -- eligible row: run the within-row argument
      have hpop' : isPopular x (sget x i) = false := by
        cases hfact : isPopular x (sget x i)
        · rfl
        · exact absurd hfact hpop
      have hjs : (b2j x (sget x i)).filter (fun j => 0 ≤ j && j < x.length) =
          positionsOf x (sget x i) := by
        rw [js_filter_self, b2j, if_neg (by rw [hpop']; simp)]
      have hself := flmInner_self x i hi hpop' f hf1 hf2 hf3
        (positionsOf x (sget x i)) (fun _ => 0) best
        (positionsOf_sorted x (sget x i))
        (fun j hj => ⟨(positionsOf_mem hj).1, (positionsOf_mem hj).2⟩)
        hb1 (by omega) hb3
        (Or.inl (self_mem_positionsOf x i hi))
        (fun j => Nat.zero_le _) (fun j => Nat.zero_le _)
        (Or.inl (self_mem_positionsOf x i hi))
      obtain ⟨s1, s2, s3, s4, s5, s6, s7⟩ := hself
      rw [hrow, hjs]
      have := ih (i + 1)
        (flmInner f i (positionsOf x (sget x i)) (fun _ => 0) best).1
        (flmInner f i (positionsOf x (sget x i)) (fun _ => 0) best).2
        (by omega) s5
        (fun j => by
          rw [if_neg (by omega : ¬ i + 1 = 0), Nat.add_sub_cancel]
          exact s6 j)
        (fun _ => by rw [Nat.add_sub_cancel]; exact s7)
        s1 s2
        (by
          rw [dmax]
          exact Nat.max_le.mpr ⟨s3, s4⟩)
      have harr : i + 1 + m = i + (m + 1) := by omega
      rw [harr] at this
      exact this

theorem extendBack_selfdiag (x : List String) :
    ∀ bi bs, extendBack x x 0 0 bi bi bs = ⟨0, 0, bs + bi⟩ := by
  intro bi
  induction bi with
  | zero =>
    intro bs
    rw [extendBack, Nat.add_zero]
  | succ bi ih =>
    intro bs
    rw [extendBack, if_pos ⟨by omega, by omega, rfl⟩, Nat.add_sub_cancel, ih]
    have : bs + 1 + bi = bs + (bi + 1) := by omega
    rw [this]

theorem extendForward_selfn (x : List String) (n : Nat) :
    ∀ fuel sz, n ≤ sz + fuel → sz ≤ n → extendForward x x n n 0 0 fuel sz = n := by
  intro fuel
  induction fuel with
  | zero =>
    intro sz h1 h2
    rw [extendForward]
    omega
  | succ fuel ih =>
    intro sz h1 h2
    rw [extendForward]
    by_cases hsz : sz < n
    · rw [if_pos ⟨by omega, by omega, rfl⟩]
      exact ih (sz + 1) (by omega) (by omega)
    · rw [if_neg (fun hc => hsz (by simpa using hc.1))]
      omega

theorem findLongestMatch_self (x : List String) :
    findLongestMatch x x 0 x.length 0 x.length = ⟨0, 0, x.length⟩ := by
  have hfold := flmFold_self x (x.length - 0) 0 (fun _ => 0) ⟨0, 0, 0⟩
    (by omega) (fun j => Nat.zero_le _) (fun j => Nat.zero_le _)
    (fun h => absurd h (by omega)) rfl (by decide) (by rw [dmax])
  obtain ⟨hdiag, hsum, _⟩ := hfold
  have hzm : (0 : Nat) + (x.length - 0) = x.length := by omega
  rw [hzm] at hsum
  rw [findLongestMatch]
  have hback : extendBack x x 0 0
      ((List.range' 0 (x.length - 0)).foldl (flmRow x x 0 x.length)
        ((fun _ => 0), ⟨0, 0, 0⟩)).2.besti
      ((List.range' 0 (x.length - 0)).foldl (flmRow x x 0 x.length)
        ((fun _ => 0), ⟨0, 0, 0⟩)).2.bestj
      ((List.range' 0 (x.length - 0)).foldl (flmRow x x 0 x.length)
        ((fun _ => 0), ⟨0, 0, 0⟩)).2.bestsize =
      ⟨0, 0, ((List.range' 0 (x.length - 0)).foldl (flmRow x x 0 x.length)
        ((fun _ => 0), ⟨0, 0, 0⟩)).2.bestsize +
        ((List.range' 0 (x.length - 0)).foldl (flmRow x x 0 x.length)
          ((fun _ => 0), ⟨0, 0, 0⟩)).2.besti⟩ := by
    rw [← hdiag]
    exact extendBack_selfdiag x _ _
  rw [hback]
  have hfwd := extendForward_selfn x x.length x.length
    (((List.range' 0 (x.length - 0)).foldl (flmRow x x 0 x.length)
      ((fun _ => 0), ⟨0, 0, 0⟩)).2.bestsize +
     ((List.range' 0 (x.length - 0)).foldl (flmRow x x 0 x.length)
      ((fun _ => 0), ⟨0, 0, 0⟩)).2.besti)
    (by omega) (by omega)
  rw [hfwd]

theorem getOpCodes_self (x : List String) :
    getOpCodes x x =
      if x.length = 0 then [] else [⟨'e', 0, x.length, 0, x.length⟩] := by
  rw [getOpCodes, getMatchingBlocks]
  have hmb : matchBlocks x x (x.length + x.length + 1) 0 x.length 0 x.length =
      if x.length = 0 then [] else [⟨0, 0, x.length⟩] := by
    rw [matchBlocks, findLongestMatch_self]
    by_cases hn : x.length = 0
    · rw [if_pos hn, if_pos hn]
    · rw [if_neg hn, if_neg hn, if_neg (fun hc : (0 : Nat) < 0 ∧ (0 : Nat) < 0 => by omega),
        if_neg (fun hc : 0 + x.length < x.length ∧ 0 + x.length < x.length => by omega)]
      rfl
  rw [hmb]
  by_cases hn : x.length = 0
  · rw [if_pos hn, if_pos hn, hn]
    rfl
  · rw [if_neg hn, if_neg hn]
    have hpos : 0 < x.length := Nat.pos_of_ne_zero hn
    simp only [collapseAdjacent, opCodesLoop, List.cons_append, List.nil_append,
      List.append_nil, Nat.add_zero, Nat.zero_add, eq_self_iff_true, and_self,
      if_true, if_false, lt_self_iff_false, and_false, false_and, hpos,
      Nat.lt_irrefl, reduceIte]

/-- Claim C6: comparing any line sequence against itself, under any
configuration, yields a result where every record is `Equal` with an empty
highlight list and `HasChanges` is `false`.  This rests on the embedded
difflib matcher returning the single full-range match on identical sequences
(`findLongestMatch_self`), which holds even when the popularity purge drops
elements from `b2j`. -/
theorem C6_self_compare (normalize : String → String) (tokenize : String → List Token)
    (lines : List String) (f1 f2 : String) :
    (∀ dl ∈ (DiffLinesWith normalize tokenize lines lines f1 f2).Lines,
      dl.type = LineType.Equal ∧ dl.Highlights = []) ∧
    HasChanges (DiffLinesWith normalize tokenize lines lines f1 f2) = false := by
  have hlines : (DiffLinesWith normalize tokenize lines lines f1 f2).Lines =
      assemble tokenize lines lines (getOpCodes (lines.map normalize) (lines.map normalize))
        1 1 := rfl
  have hmem : ∀ dl ∈ (DiffLinesWith normalize tokenize lines lines f1 f2).Lines,
      dl.type = LineType.Equal ∧ dl.Highlights = [] := by
    intro dl hdl
    rw [hlines, getOpCodes_self] at hdl
    split at hdl
    · simp [assemble] at hdl
    · rw [assemble] at hdl
      rcases List.mem_append.mp hdl with hpart | hrest
      · rw [if_pos rfl] at hpart
        obtain ⟨t, ht, rfl⟩ := mem_emitEqual hpart
        exact ⟨rfl, rfl⟩
      · simp [assemble] at hrest
  refine ⟨hmem, ?_⟩
  rw [HasChanges, List.any_eq_false]
  intro dl hdl
  simp [(hmem dl hdl).1]

theorem matchAt_spec (cs tok rem : List Char) (h : matchAt cs = some (tok, rem)) :
    0 < tok.length ∧ tok.length + rem.length = cs.length := by
  match cs with
  | [] => simp [matchAt] at h
  | c :: rest =>
    simp only [matchAt] at h
    by_cases h1 : isPatSpace c
    · simp only [h1, if_true, Option.some.injEq, Prod.mk.injEq] at h
      obtain ⟨rfl, rfl⟩ := h
      have hle : (rest.takeWhile isPatSpace).length ≤ rest.length :=
        (List.takeWhile_prefix isPatSpace).length_le
      simp only [List.length_cons, List.length_drop]
      omega
    · simp only [h1, if_false, Bool.false_eq_true] at h
      by_cases h2 : isIdentStart c
      · simp only [h2, if_true, Option.some.injEq, Prod.mk.injEq] at h
        obtain ⟨rfl, rfl⟩ := h
        have hle : (rest.takeWhile isIdentChar).length ≤ rest.length :=
          (List.takeWhile_prefix isIdentChar).length_le
        simp only [List.length_cons, List.length_drop]
        omega
      · simp only [h2, if_false, Bool.false_eq_true] at h
        cases hhex : matchHex (c :: rest) with
        | some p =>
          rw [hhex] at h
          obtain ⟨ht, hr⟩ : p.1 = tok ∧ p.2 = rem := by
            cases p; exact Prod.mk.injEq .. ▸ (Option.some.injEq .. ▸ h)
          subst ht; subst hr
          exact matchHex_spec _ _ _ (by rw [hhex])
        | none =>
          rw [hhex] at h
          by_cases h3 : isDigitChar c
          · simp only [h3, if_true, Option.some.injEq, Prod.mk.injEq] at h
            obtain ⟨rfl, rfl⟩ := h
            have hle : (rest.takeWhile isDigitChar).length ≤ rest.length :=
              (List.takeWhile_prefix isDigitChar).length_le
            simp only [List.length_cons, List.length_drop]
            omega
          · simp only [h3, if_false, Bool.false_eq_true] at h
            match rest with
            | [] =>
              by_cases h4 : isPunctChar c
              · simp only [h4, if_true, Option.some.injEq, Prod.mk.injEq] at h
                obtain ⟨rfl, rfl⟩ := h
                simp
              · simp [h4] at h
            | d :: rest2 =>
              by_cases h4 : isOp2 c d
              · simp only [h4, if_true, Option.some.injEq, Prod.mk.injEq] at h
                obtain ⟨rfl, rfl⟩ := h
                simp only [List.length_cons, List.length_nil]
                omega
              · simp only [h4, if_false, Bool.false_eq_true] at h
                by_cases h5 : isPunctChar c
                · simp only [h5, if_true, Option.some.injEq, Prod.mk.injEq] at h
                  obtain ⟨rfl, rfl⟩ := h
                  simp only [List.length_cons, List.length_nil]
                  omega
                · simp [h5] at h

theorem scanTokens_spec (fuel : Nat) : ∀ cs pos,
    (∀ t ∈ scanTokens fuel cs pos, pos ≤ t.Start ∧ t.Start ≤ t.End ∧ t.End ≤ pos + cs.length) ∧
    List.Chain' (fun s t => s.End ≤ t.Start) (scanTokens fuel cs pos) := by
  induction fuel with
  | zero => intro cs pos; simp [scanTokens]
  | succ fuel ih =>
    intro cs pos
    match cs with
    | [] => simp [scanTokens]
    | c :: rest =>
      have hcc : (c :: rest).length = rest.length + 1 := rfl
      cases hm : matchAt (c :: rest) with
      | none =>
        have hred : scanTokens (fuel + 1) (c :: rest) pos = scanTokens fuel rest (pos + 1) := by
          simp only [scanTokens, hm]
        rw [hred]
        obtain ⟨hb, hc⟩ := ih rest (pos + 1)
        refine ⟨fun t ht => ?_, hc⟩
        obtain ⟨h1, h2, h3⟩ := hb t ht
        omega
      | some p =>
        obtain ⟨tok, rem⟩ := p
        have hred : scanTokens (fuel + 1) (c :: rest) pos =
            ⟨String.mk tok, pos, pos + tok.length⟩ :: scanTokens fuel rem (pos + tok.length) := by
          simp only [scanTokens, hm]
        rw [hred]
        obtain ⟨htl, hlen⟩ := matchAt_spec _ _ _ hm
        rw [hcc] at hlen
        obtain ⟨hb, hc⟩ := ih rem (pos + tok.length)
        constructor
        · intro t ht
          rcases List.mem_cons.mp ht with rfl | ht'
          · simp only
            omega
          · obtain ⟨h1, h2, h3⟩ := hb t ht'
            omega
        · cases hr : scanTokens fuel rem (pos + tok.length) with
          | nil => simp
          | cons t0 ts =>
            rw [List.chain'_cons]
            refine ⟨?_, hr ▸ hc⟩
            have ht0 : t0 ∈ scanTokens fuel rem (pos + tok.length) := by
              rw [hr]; exact List.mem_cons_self ..
            exact (hb t0 ht0).1

theorem tokenizeDefault_bounded : TokenizerBounded tokenizeDefault := by
  intro s t ht
  simp only [tokenizeDefault] at ht
  split at ht
  · rcases List.mem_singleton.mp ht with rfl
    exact Nat.le_refl _
  · have := ((scanTokens_spec s.data.length s.data 0).1 t ht).2.2
    omega

theorem C5_highlight_bounds_witness :
    (⟨.Removed, "let x = 1", 1, 0, [⟨8, 9⟩]⟩ : DiffLine) ∈
      (DiffLinesWith (normalizeGo false) tokenizeDefault
        ["let x = 1"] ["let x = 2"] "a" "b").Lines ∧
    ((∀ h ∈ (⟨.Removed, "let x = 1", 1, 0, [⟨8, 9⟩]⟩ : DiffLine).Highlights,
        h.Start ≤ h.End ∧
        h.End ≤ (⟨.Removed, "let x = 1", 1, 0, [⟨8, 9⟩]⟩ : DiffLine).Content.data.length) ∧
      ((⟨.Removed, "let x = 1", 1, 0, [⟨8, 9⟩]⟩ : DiffLine).Content ≠ "" →
        ∀ h ∈ (⟨.Removed, "let x = 1", 1, 0, [⟨8, 9⟩]⟩ : DiffLine).Highlights,
          h.Start < h.End) ∧
      List.Chain' (fun g h => g.End < h.Start)
        (⟨.Removed, "let x = 1", 1, 0, [⟨8, 9⟩]⟩ : DiffLine).Highlights) :=
  ⟨by decide,
   C5_highlight_bounds (normalizeGo false) tokenizeDefault tokenizeDefault_bounded
     ["let x = 1"] ["let x = 2"] "a" "b"
     ⟨.Removed, "let x = 1", 1, 0, [⟨8, 9⟩]⟩ (by decide)⟩

/-- Claim C3, as stated, is false: the default tokenizer emits only the
regex-matched spans, so a character matched by no pattern alternative (here
the `?` of `"a?b"`) is covered by no token and the spans do not partition
`[0, runeLength)`. -/
theorem C3_counterexample :
    (tokenizeDefault "a?b").flatMap (fun t => List.range' t.Start (t.End - t.Start)) ≠
      List.range 3 := by decide

/-- Claim C3 (amended): the default tokenizer's token spans are well-formed
(`start ≤ end ≤ runeLength(line)`) and pairwise disjoint in ascending order
(each token ends at or before the next one starts), and a line with no match
at all yields a single token spanning the whole line; but unmatched characters
are skipped, not emitted as single-character tokens, so the spans need not
cover every rune. -/
theorem C3_token_spans (line : String) :
    (∀ t ∈ tokenizeDefault line, t.Start ≤ t.End ∧ t.End ≤ line.data.length) ∧
    List.Chain' (fun s t => s.End ≤ t.Start) (tokenizeDefault line) ∧
    (scanTokens line.data.length line.data 0 = [] →
      tokenizeDefault line = [⟨line, 0, line.data.length⟩]) := by
  refine ⟨fun t ht => ?_, ?_, fun hs => ?_⟩
  · simp only [tokenizeDefault] at ht
    split at ht
    · rcases List.mem_singleton.mp ht with rfl
      exact ⟨Nat.zero_le _, Nat.le_refl _⟩
    · have := (scanTokens_spec line.data.length line.data 0).1 t ht
      omega
  · simp only [tokenizeDefault]
    split
    · exact List.chain'_singleton _
    · exact (scanTokens_spec line.data.length line.data 0).2
  · simp only [tokenizeDefault]
    rw [hs]
    rfl

/-- Claim C8: with the default configuration, comparing `["let x = 1"]` with
`["let x = 2"]` yields a `Removed`/`Added` pair whose highlight lists are
exactly the single span `[8, 9)` of the differing numeric token. -/
theorem C8_scenarioC :
    (DiffLinesWith (normalizeGo false) tokenizeDefault
        ["let x = 1"] ["let x = 2"] "a" "b").Lines =
      [⟨.Removed, "let x = 1", 1, 0, [⟨8, 9⟩]⟩,
       ⟨.Added, "let x = 2", 0, 1, [⟨8, 9⟩]⟩] := by decide

/-- Claim C10: in every configuration and at every operation range, a pure
deletion record, a pure insertion record, and a replace-spillover record
(a `Removed` record of the replace loop whose index `lineNo1 - n1` lies past
the covered length of side B, or symmetrically an `Added` record past side A)
whose content is the empty string carries exactly the single zero-width
highlight `[0, 0)` — the full-line highlight of an empty line — never an
empty highlight list. -/
theorem C10_empty_line_zero_width :
    (∀ (lines1 : List String) (i1 i2 n1 : Nat), ∀ dl ∈ emitDelete lines1 i1 i2 n1,
      dl.Content = "" → dl.Highlights = [⟨0, 0⟩]) ∧
    (∀ (lines2 : List String) (j1 j2 n2 : Nat), ∀ dl ∈ emitInsert lines2 j1 j2 n2,
      dl.Content = "" → dl.Highlights = [⟨0, 0⟩]) ∧
    (∀ (tokenize : String → List Token) (lines1 lines2 : List String)
        (i1 i2 j1 j2 n1 n2 : Nat),
      ∀ dl ∈ emitReplace tokenize lines1 lines2 i1 i2 j1 j2 n1 n2,
        dl.Content = "" →
        (dl.type = LineType.Removed → j2 - j1 ≤ dl.LineNo1 - n1 →
          dl.Highlights = [⟨0, 0⟩]) ∧
        (dl.type = LineType.Added → i2 - i1 ≤ dl.LineNo2 - n2 →
          dl.Highlights = [⟨0, 0⟩])) := by
  refine ⟨?_, ?_, ?_⟩
  · intro l1 i1 i2 n1 dl hdl hc
    obtain ⟨t, ht, rfl⟩ := mem_emitDelete hdl
    replace hc : sget l1 (i1 + t) = "" := hc
    show fullLineHighlight (sget l1 (i1 + t)) = [⟨0, 0⟩]
    rw [hc]
    rfl
  · intro l2 j1 j2 n2 dl hdl hc
    obtain ⟨t, ht, rfl⟩ := mem_emitInsert hdl
    replace hc : sget l2 (j1 + t) = "" := hc
    show fullLineHighlight (sget l2 (j1 + t)) = [⟨0, 0⟩]
    rw [hc]
    rfl
  · intro tok l1 l2 i1 i2 j1 j2 n1 n2 dl hdl hc
    simp only [emitReplace, List.mem_flatMap, List.mem_range] at hdl
    obtain ⟨k, hk, hmem⟩ := hdl
    rcases List.mem_append.mp hmem with h1 | h2
    · by_cases hk1 : k < i2 - i1
      · rw [if_pos hk1] at h1
        rcases List.mem_singleton.mp h1 with rfl
        replace hc : sget l1 (i1 + k) = "" := hc
        refine ⟨fun _ hsp => ?_,
          fun habs => absurd (show LineType.Removed = LineType.Added from habs) (by decide)⟩
        replace hsp : j2 - j1 ≤ n1 + k - n1 := hsp
        have hk2 : ¬ k < j2 - j1 := by omega
        rw [if_neg (fun hcc => hk2 hcc.2), if_pos hk1, hc]
        rfl
      · rw [if_neg hk1] at h1
        exact absurd h1 (List.not_mem_nil _)
    · by_cases hk2 : k < j2 - j1
      · rw [if_pos hk2] at h2
        rcases List.mem_singleton.mp h2 with rfl
        replace hc : sget l2 (j1 + k) = "" := hc
        refine ⟨fun habs => absurd (show LineType.Added = LineType.Removed from habs) (by decide),
          fun _ hsp => ?_⟩
        replace hsp : i2 - i1 ≤ n2 + k - n2 := hsp
        have hk1 : ¬ k < i2 - i1 := by omega
        rw [if_neg (fun hcc => hk1 hcc.1), if_neg hk1, if_pos hk2, hc]
        rfl
      · rw [if_neg hk2] at h2
        exact absurd h2 (List.not_mem_nil _)

/-- Claim C2, as stated, is false: an invalid entry in
`tokenPatternsByExtension` is not dropped — `buildTokenizers` hands it to
`NewRegexTokenizer`, whose `regexp.MustCompile` panics, aborting engine
construction (the `none` of the model).  With `TokenPatterns = [(".x", "(")]`
and no ignore-patterns, the construction run consults the compile oracle at
the single pattern `"("`, which Go's `regexp.Compile` rejects (missing
closing parenthesis), so the oracle instance `fun p => p != "("` agrees with
the real compiler at every consulted point and its value elsewhere is
irrelevant to this run. -/
theorem C2_counterexample :
    NewEngineModel (fun p => p != "(") ⟨"", false, [], [(".x", "(")]⟩ = none := by decide

/-- Claim C2 (amended): relative to any compile-success oracle `ok`
(standing for Go's `regexp.Compile`), engine construction succeeds exactly
when every `tokenPatternsByExtension` entry compiles — in which case the
surviving ignore-patterns are precisely the `ignorePatterns` entries that
compile, the invalid ones silently dropped — and aborts (`MustCompile`
panic) when some token-pattern entry does not compile, instead of dropping
it. -/
theorem C2_construction (ok : String → Bool) (o : EngineOptions) :
    (o.TokenPatterns.all (fun e => ok e.2) = true →
      NewEngineModel ok o =
        some ⟨o, defaultExts ++ o.TokenPatterns.map (·.1),
          compileIgnorePatternsModel ok o.IgnorePatterns⟩) ∧
    (o.TokenPatterns.all (fun e => ok e.2) = false →
      NewEngineModel ok o = none) ∧
    (∀ p, p ∈ compileIgnorePatternsModel ok o.IgnorePatterns ↔
      p ∈ o.IgnorePatterns ∧ ok p = true) := by
  refine ⟨fun h => ?_, fun h => ?_, fun p => ?_⟩
  · rw [NewEngineModel, if_pos h]
  · rw [NewEngineModel, if_neg (fun hc => by rw [h] at hc; exact Bool.false_ne_true hc)]
  · simp [compileIgnorePatternsModel, List.mem_filter]

theorem C2_construction_witness :
    NewEngineModel (fun p => p != "(") ⟨"", false, ["(", "a+"], [(".x", "b*")]⟩ =
      some ⟨⟨"", false, ["(", "a+"], [(".x", "b*")]⟩, defaultExts ++ [".x"], ["a+"]⟩ :=
  Eq.trans
    ((C2_construction (fun p => p != "(") ⟨"", false, ["(", "a+"], [(".x", "b*")]⟩).1
      (by decide))
    (by decide)

/-- Claim C4, as stated, is false for configurations whose normalization is
not injective on the inputs: with `ignoreWhitespace = true`, comparing
`["a  b"]` with `["a b"]` classifies the pair as `Equal` but emits the side-A
content `"a  b"`, so concatenating the non-`Removed` contents gives
`["a  b"]`, not `linesB = ["a b"]`. -/
theorem C4_counterexample :
    ¬ ((((DiffLinesWith (normalizeGo true) tokenizeDefault ["a  b"] ["a b"] "a" "b").Lines.filter
          (fun dl => dl.type ≠ .Removed)).map (fun dl => dl.Content) = ["a b"]) ∧
       (((DiffLinesWith (normalizeGo true) tokenizeDefault ["a  b"] ["a b"] "a" "b").Lines.filter
          (fun dl => dl.type ≠ .Added)).map (fun dl => dl.Content) = ["a  b"])) := by decide

/-- Claim C5, as stated, is false: the full-line highlight of an empty line is
the zero-width span `[0, 0)`, which violates `end > start`.  Here the single
`Removed` record for deleting an empty line carries highlight list `[[0,0)]`. -/
theorem C5_counterexample :
    ¬ (∀ dl ∈ (DiffLinesWith (normalizeGo false) tokenizeDefault [""] [] "a" "b").Lines,
        ∀ h ∈ dl.Highlights, h.Start < h.End) := by decide

end GDiff
